import Mathlib

/-!
Verification of the temporal key/value store ("timed file system") against its
natural-language specification.

The development shallowly embeds the Python sources:
* `examples/codesignal/timed_file_system.py` (classes `MaxSentinel`, `File`,
  `TimedFileSystem`), the primary edition;
* `practice/timed_file_system.py`, the edition whose `search_at` heapifies the
  whole candidate list (its store logic is line-identical to the primary
  edition's for non-negative timestamps);
* `src/dsap/heap/heap.py` (`_Heap`/`MaxHeap`): the bounded top-k heap used by
  the primary `search_at`.

Python's unbounded `int` is embedded as `Int`; raised `ValueError`s become
`Except String`; the `dict`/`Map` from name to version history becomes an
association list (new keys appended at the end, matching insertion order).
Loops are embedded as structurally recursive functions on an explicit fuel
argument; the top-level wrappers supply fuel that provably lets every loop run
to completion, and the lemmas about the fuelled bodies carry the corresponding
fuel bound as a hypothesis.
-/

namespace TimedFS

/-- Embedding of `ttl: int | MaxSentinel`: either a plain integer or the
`MaxSentinel` value that compares greater than every integer and absorbs
arithmetic. -/
inductive TTL where
  | int (n : Int)
  | unbounded
deriving Repr, DecidableEq, Inhabited

/-- `ttl <= 0` from `upload_at`: an integer ttl compares normally, while
`MaxSentinel.__le__` always returns `False`. -/
def TTL.nonpos : TTL → Bool
  | .int n => n ≤ 0
  | .unbounded => false

/-- `ttl - elapsed` from `copy_at`: integer subtraction, with
`MaxSentinel.__sub__` returning the sentinel unchanged. -/
def TTL.sub : TTL → Int → TTL
  | .int n, m => .int (n - m)
  | .unbounded, _ => .unbounded

/-- `created_timestamp + ttl`: integer addition, with `MaxSentinel.__radd__`
returning the sentinel unchanged. -/
def TTL.addTo : TTL → Int → TTL
  | .int n, c => .int (c + n)
  | .unbounded, _ => .unbounded

/-- `timestamp <= last_valid`: an integer compares normally with an integer,
and every integer is `<=` the sentinel. -/
def intLe (x : Int) : TTL → Bool
  | .int n => x ≤ n
  | .unbounded => true

/-- `last_valid < timestamp`: the reverse strict comparison; the sentinel is
never below an integer. -/
def ttlLtInt : TTL → Int → Bool
  | .int n, x => n < x
  | .unbounded, _ => false

/-- Embedding of the `File` dataclass: one version record. -/
structure File where
  name : String
  size : Int
  created_timestamp : Int
  ttl : TTL
deriving Repr, DecidableEq, Inhabited

/-- `File.get_last_valid_timestamp`: `created_timestamp + ttl`. -/
def File.get_last_valid_timestamp (f : File) : TTL :=
  f.ttl.addTo f.created_timestamp

/-- The chained check `created_timestamp <= timestamp <= last_valid` from
`_retrieve_file`. -/
def File.activeAt (f : File) (t : Int) : Bool :=
  decide (f.created_timestamp ≤ t) && intLe t f.get_last_valid_timestamp

/-- Embedding of the `_files` mapping from name to version history, as an
association list in insertion order. -/
abbrev Store := List (String × List File)

/-- Mapping lookup (`self._files[name]` guarded by `name in self._files`). -/
def lookupHist : Store → String → Option (List File)
  | [], _ => none
  | (k, h) :: rest, n => if k = n then some h else lookupHist rest n

/-- Mapping update `self._files[name] = h`: replaces the existing entry or
appends a new one at the end. -/
def setHist : Store → String → List File → Store
  | [], n, h => [(n, h)]
  | (k, h0) :: rest, n, h =>
      if k = n then (k, h) :: rest else (k, h0) :: setHist rest n h

/-- The history stored for a name (empty when the name is absent). -/
def historyOf (s : Store) (n : String) : List File :=
  (lookupHist s n).getD []

/-- Loop body of Python's `bisect.bisect_right` (`lo`/`hi` bracketing, probing
`(lo+hi)/2`); `fuel ≥ hi - lo` lets the loop run to completion. -/
def bisectAux (keys : List Int) (x : Int) : Nat → Nat → Nat → Nat
  | 0, lo, _ => lo
  | fuel + 1, lo, hi =>
      if lo < hi then
        let mid := (lo + hi) / 2
        if x < keys.getD mid 0 then bisectAux keys x fuel lo mid
        else bisectAux keys x fuel (mid + 1) hi
      else lo

/-- `bisect.bisect(seq, x, key=...)` over the list of keys of a sequence. -/
def bisect (keys : List Int) (x : Int) : Nat :=
  bisectAux keys x keys.length 0 keys.length

/-- `bisect.insort(files, file, key=attrgetter("created_timestamp"))`:
insert at the rightmost position among equal keys. -/
def insortFile (h : List File) (f : File) : List File :=
  let i := bisect (h.map File.created_timestamp) f.created_timestamp
  h.take i ++ f :: h.drop i

/-- `TimedFileSystem._insert_file`: ensure the name has a history, then
`insort` the record by `created_timestamp`. -/
def insertFile (s : Store) (f : File) : Store :=
  let h := historyOf s f.name
  setHist s f.name (insortFile h f)

/-- The history part of `TimedFileSystem._retrieve_file`: `bisect` by
timestamp, step one index back, then validate the candidate's window. -/
def retrieveHist (h : List File) (t : Int) : Option File :=
  let i := bisect (h.map File.created_timestamp) t
  if i = 0 then none
  else
    let target := h.getD (i - 1) default
    if target.activeAt t then some target else none

/-- `TimedFileSystem._retrieve_file`: `None` when the name is absent or its
history is empty, else resolve within the history. -/
def retrieveFile (s : Store) (t : Int) (n : String) : Option File :=
  match lookupHist s n with
  | none => none
  | some h => if h.isEmpty then none else retrieveHist h t

/-- `TimedFileSystem.upload_at`: validation, duplicate check at the requested
timestamp, then insertion. -/
def uploadAt (s : Store) (timestamp : Int) (file_name : String)
    (file_size : Int) (ttl : TTL) : Except String Store :=
  if timestamp < 0 then .error "Timestamp must be non-negative."
  else if file_name = "" then .error "File name must be non-empty."
  else if file_size < 0 then .error "File size must be non-negative."
  else if ttl.nonpos then .error "File ttl must be positive or None."
  else if (retrieveFile s timestamp file_name).isSome then
    .error "File with the same name already exists."
  else .ok (insertFile s ⟨file_name, file_size, timestamp, ttl⟩)

/-- `TimedFileSystem.get_at`: size of the active record, `none` otherwise. -/
def getAt (s : Store) (timestamp : Int) (file_name : String) :
    Except String (Option Int) :=
  if timestamp < 0 then .error "Timestamp must be non-negative."
  else .ok ((retrieveFile s timestamp file_name).map File.size)

/-- `TimedFileSystem.copy_at`: resolve the source's active record, treat a
self-copy as a no-op, else insert a fresh record for `dest` whose ttl is the
source's remaining lifetime. -/
def copyAt (s : Store) (timestamp : Int) (source dest : String) :
    Except String Store :=
  if timestamp < 0 then .error "Timestamp must be non-negative."
  else
    match retrieveFile s timestamp source with
    | none => .error "Source file does not exist."
    | some source_file =>
      if source = dest then .ok s
      else .ok (insertFile s
          ⟨dest, source_file.size, timestamp,
            source_file.ttl.sub (timestamp - source_file.created_timestamp)⟩)

/-- `TimedFileSystem.rollback`: per name, `bisect` for the first record created
after the timestamp; drop the key when the cut is at index 0, else keep the
prefix before the cut. -/
def rollback (s : Store) (timestamp : Int) : Except String Store :=
  if timestamp < 0 then .error "Timestamp must be non-negative."
  else .ok (s.filterMap (fun e =>
      let i := bisect (e.2.map File.created_timestamp) timestamp
      if i = 0 then none else some (e.1, e.2.take i)))

/-- Unwraps a successful operation result (all chained calls in the concrete
scenarios below do succeed, which the surrounding proofs establish). -/
def runOk (e : Except String Store) : Store :=
  e.toOption.getD []

/-- Python's `str.startswith`: the pattern's code points are a prefix of the
string's. -/
def strStartsWith (s pre : String) : Bool :=
  pre.data.isPrefixOf s.data

/-- The heap entries `(-file.size, file.name)` compare as Python tuples do:
lexicographically, integers first, then strings by code point. -/
abbrev Prio := Int ×ₗ String

instance : Inhabited Prio := ⟨toLex (0, "")⟩

/-- The tuple `(-file.size, file.name)` pushed by both `search_at` editions. -/
def filePrio (f : File) : Prio :=
  toLex (-f.size, f.name)

/-- `TimedFileSystem._get_active_files`: the active record of every stored
name. -/
def getActiveFiles (s : Store) (t : Int) : List File :=
  s.filterMap (fun e => retrieveFile s t e.1)

namespace MaxHeap

variable {α : Type} [LinearOrder α] [Inhabited α]

/-- `self._heap[i]` (all accesses the heap performs are in bounds, so the
default is never read). -/
def nth (l : List α) (i : Nat) : α :=
  l.getD i default

/-- `_Heap._swap`. -/
def swap (l : List α) (i j : Nat) : List α :=
  (l.set i (nth l j)).set j (nth l i)

/-- `_Heap._parent`: `(i - 1) // 2` (on `Nat`, index 0 maps to 0 instead of
-1; the heap only takes the parent of a positive index). -/
def parentIdx (i : Nat) : Nat :=
  (i - 1) / 2

/-- `_Heap._priority_child` for `MaxHeap`: the larger of the existing
children, the right one on ties. -/
def priorityChild (l : List α) (i : Nat) : Option Nat :=
  if 2 * i + 1 ≥ l.length then none
  else if 2 * i + 2 ≥ l.length then some (2 * i + 1)
  else if nth l (2 * i + 1) > nth l (2 * i + 2) then some (2 * i + 1)
  else some (2 * i + 2)

/-- Loop body of `_Heap._sift_up` for `MaxHeap` (`_compare` is `>`); the index
strictly decreases, so `fuel ≥ i` runs the loop to completion. -/
def siftUpF : Nat → List α → Nat → List α
  | 0, l, _ => l
  | fuel + 1, l, i =>
      if i = 0 then l
      else if nth l (parentIdx i) > nth l i then l
      else siftUpF fuel (swap l i (parentIdx i)) (parentIdx i)

/-- `_Heap._sift_up` for `MaxHeap`. -/
def siftUp (l : List α) (i : Nat) : List α :=
  siftUpF i l i

/-- Loop body of `_Heap._sift_down` for `MaxHeap`; the Python guard
`not child` is falsy both for `None` and for child index 0 (the latter never
occurs, as children have positive indices). The index strictly increases below
the length, so `fuel ≥ l.length - i` runs the loop to completion. -/
def siftDownF : Nat → List α → Nat → List α
  | 0, l, _ => l
  | fuel + 1, l, i =>
      if i < l.length then
        match priorityChild l i with
        | none => l
        | some c =>
            if c = 0 ∨ nth l i > nth l c then l
            else siftDownF fuel (swap l i c) c
      else l

/-- `_Heap._sift_down` for `MaxHeap`. -/
def siftDown (l : List α) (i : Nat) : List α :=
  siftDownF l.length l i

/-- `_Heap.push`: append, then sift the last index up. -/
def push (l : List α) (v : α) : List α :=
  siftUp (l ++ [v]) l.length

/-- `_Heap.pop`: `None` on the empty heap; on one element, remove it; else
return the root, move the last element to the root and sift it down. -/
def popHeap (l : List α) : Option (α × List α) :=
  match l with
  | [] => none
  | [a] => some (a, [])
  | a :: b :: t =>
      some (a,
        siftDown (((a :: b :: t).dropLast).set 0
          (nth (a :: b :: t) ((a :: b :: t).length - 1))) 0)

/-- Loop body of `_Heap.consume_all`: pop until the heap is empty; each pop
shrinks the heap, so `fuel ≥ l.length` runs the loop to completion. -/
def consumeAllF : Nat → List α → List α
  | 0, _ => []
  | fuel + 1, l =>
      match popHeap l with
      | none => []
      | some (v, l') => v :: consumeAllF fuel l'

/-- `_Heap.consume_all` (as the list the iterator yields). -/
def consumeAll (l : List α) : List α :=
  consumeAllF l.length l

/-- The max-heap shape invariant the class documents and maintains: every
entry below the root is at most its parent. -/
def IsHeap (l : List α) : Prop :=
  ∀ j, j < l.length → 0 < j → nth l j ≤ nth l (parentIdx j)

end MaxHeap

/-- One iteration of the `search_at` heap loop in the codesignal edition:
push the entry, then evict the heap's maximum when more than `k = 10` entries
are held. -/
def searchStep (h : List Prio) (f : File) : List Prio :=
  let h1 := MaxHeap.push h (filePrio f)
  if h1.length > 10 then ((MaxHeap.popHeap h1).map Prod.snd).getD [] else h1

/-- `TimedFileSystem.search_at` (codesignal edition): filter active files by
the optional prefix, run the bounded max-heap of `(-size, name)` entries,
consume the heap and reverse the names. -/
def searchAt (s : Store) (timestamp : Int) (pre : String) :
    Except String (List String) :=
  if timestamp < 0 then .error "Timestamp must be non-negative."
  else
    let files := getActiveFiles s timestamp
    let files :=
      if pre = "" then files else files.filter (fun f => strStartsWith f.name pre)
    let heap := files.foldl searchStep []
    .ok (((MaxHeap.consumeAll heap).map (fun p => (ofLex p).2)).reverse)

/-- Model of Python stdlib `heapq.heapify` (an external collaborator, spec §6:
a priority structure specified by its interface): realized as the sorted list,
whose successive minima are exactly the pops `heapq.heappop` yields. -/
def heapqHeapify (l : List Prio) : List Prio :=
  l.insertionSort (· ≤ ·)

/-- The `for _ in range(10)` pop loop of the practice edition's `search_at`:
stop after ten pops or when the heap model is exhausted, collecting names. -/
def heapqPopLoop : Nat → List Prio → List String
  | 0, _ => []
  | _ + 1, [] => []
  | n + 1, p :: rest => (ofLex p).2 :: heapqPopLoop n rest

/-- `TimedFileSystem.search_at` (practice edition): same filtering, then a
full heapify of all entries and at most ten pops. -/
def searchAtPractice (s : Store) (timestamp : Int) (pre : String) :
    Except String (List String) :=
  if timestamp < 0 then .error "File timestamp must be non-negative."
  else
    let files := getActiveFiles s timestamp
    let files :=
      if pre = "" then files else files.filter (fun f => strStartsWith f.name pre)
    .ok (heapqPopLoop 10 (heapqHeapify (files.map filePrio)))

/-- The spec's result order: size descending, ties by name ascending. -/
def sizeDescNameAsc (f g : File) : Prop :=
  g.size < f.size ∨ (f.size = g.size ∧ f.name ≤ g.name)

instance : DecidableRel sizeDescNameAsc := fun f g => by
  unfold sizeDescNameAsc; infer_instance

/-- The sort-then-truncate reference result for `search_at` named by the
claim: the active records matching the prefix, sorted by size descending with
ties by name ascending, truncated to the first ten names. -/
def searchSpec (s : Store) (t : Int) (pre : String) : List String :=
  let files := getActiveFiles s t
  let files :=
    if pre = "" then files else files.filter (fun f => strStartsWith f.name pre)
  ((files.insertionSort sizeDescNameAsc).take 10).map File.name

/-- A version history sorted non-decreasing by creation timestamp — the
ordering `_insert_file` maintains and `_retrieve_file`/`rollback` rely on. -/
def HSorted (h : List File) : Prop :=
  h.Sorted (fun a b => a.created_timestamp ≤ b.created_timestamp)

/-- Every stored history is sorted by creation timestamp (holds in every
reachable store). -/
def WFs (s : Store) : Prop :=
  ∀ e ∈ s, HSorted e.2

/-- The test `created_timestamp ≤ t` on a record. -/
def createdLE (t : Int) (f : File) : Bool :=
  decide (f.created_timestamp ≤ t)

/-- The prefix of a history whose records were created no later than `t`. -/
def prefixLE (h : List File) (t : Int) : List File :=
  h.takeWhile (createdLE t)

/-- The rest of a history after `prefixLE` (in a sorted history: exactly the
records created strictly after `t`). -/
def suffixGT (h : List File) (t : Int) : List File :=
  h.dropWhile (createdLE t)

/-- A ttl that is the unbounded sentinel or a non-negative integer. -/
def ttlNonneg : TTL → Prop
  | .int n => 0 ≤ n
  | .unbounded => True

/-- Every record stored anywhere has a sentinel or non-negative ttl. -/
def TtlOK (s : Store) : Prop :=
  ∀ e ∈ s, ∀ f ∈ e.2, ttlNonneg f.ttl

instance instDecHSorted (h : List File) : Decidable (HSorted h) := by
  unfold HSorted
  infer_instance

instance instDecWFs (s : Store) : Decidable (WFs s) := by
  unfold WFs
  infer_instance

instance instDecTtlNonneg : ∀ t : TTL, Decidable (ttlNonneg t)
  | .int n => inferInstanceAs (Decidable (0 ≤ n))
  | .unbounded => isTrue trivial

instance instDecTtlOK (s : Store) : Decidable (TtlOK s) := by
  unfold TtlOK
  infer_instance

/-- A store with two overlapping-in-time versions of `"f"`: a record valid on
`[10, 15]` uploaded first, then a retroactive upload at 0 valid on
`[0, 100]`. -/
def overlapStore : Store :=
  runOk (uploadAt (runOk (uploadAt [] 10 "f" 1 (.int 5))) 0 "f" 2 (.int 100))

/-- A store where the record resolved at 0 (valid through 100) is shadowed
from timestamp 5 onward by a short-lived record valid on `[5, 6]`. -/
def shadowStore : Store :=
  runOk (uploadAt (runOk (uploadAt [] 5 "f" 1 (.int 1))) 0 "f" 2 (.int 100))

/-- Copying a file at its very last valid instant: the copy's remaining ttl
is zero. -/
def ttlZeroStore : Store :=
  runOk (copyAt (runOk (uploadAt [] 10 "s" 100 (.int 90))) 100 "s" "d")

/-- The spec's copy example: upload at 10 with ttl 90, copy at 50. -/
def copyTtlStore : Store :=
  runOk (copyAt (runOk (uploadAt [] 10 "s" 100 (.int 90))) 50 "s" "d")

/-- Source and destination both uploaded at timestamp 5, so a copy at 5 hits
the equal-`created_at` tie-break. -/
def tieStore : Store :=
  runOk (uploadAt (runOk (uploadAt [] 5 "d" 1 .unbounded)) 5 "s" 2 .unbounded)

/-! ### Generic list access lemmas -/

theorem getD_mem {α : Type} {l : List α} {i : Nat} {d : α} (h : i < l.length) :
    l.getD i d ∈ l := by
  induction l generalizing i with
  | nil => simp at h
  | cons a t ih =>
    cases i with
    | zero => simp
    | succ n =>
      simp only [List.getD_cons_succ]
      exact List.Mem.tail _ (ih (by simpa using h))

theorem getD_map_created {h : List File} {j : Nat} (hj : j < h.length) :
    (h.map File.created_timestamp).getD j 0 =
      (h.getD j default).created_timestamp := by
  induction h generalizing j with
  | nil => simp at hj
  | cons a t ih =>
    cases j with
    | zero => simp
    | succ n =>
      simp only [List.map_cons, List.getD_cons_succ]
      exact ih (by simpa using hj)

theorem getD_length_sub_one {α : Type} {l : List α} (hne : l ≠ []) (d : α) :
    l.getD (l.length - 1) d = l.getLast hne := by
  induction l with
  | nil => exact absurd rfl hne
  | cons a t ih =>
    cases t with
    | nil => simp [List.getD]
    | cons b u =>
      have hlen : (a :: b :: u).length - 1 = (b :: u).length - 1 + 1 := by
        simp
      rw [hlen, List.getD_cons_succ, ih (by simp),
        List.getLast_cons (by simp : (b :: u) ≠ [])]

/-! ### Binary search: Python `bisect.bisect_right` on a sorted key list -/

theorem bisectAux_bounds (keys : List Int) (x : Int) :
    ∀ (fuel lo hi : Nat), lo ≤ hi →
      lo ≤ bisectAux keys x fuel lo hi ∧ bisectAux keys x fuel lo hi ≤ hi := by
  intro fuel
  induction fuel with
  | zero => intro lo hi hlh; simpa [bisectAux] using hlh
  | succ fuel ih =>
    intro lo hi hlh
    simp only [bisectAux]
    by_cases hlt : lo < hi
    · simp only [hlt, if_true]
      by_cases hx : x < keys.getD ((lo + hi) / 2) 0
      · simp only [hx, if_true]
        have := ih lo ((lo + hi) / 2) (by omega)
        omega
      · simp only [hx, if_false]
        have := ih ((lo + hi) / 2 + 1) hi (by omega)
        omega
    · simp [hlt, hlh]

theorem bisect_le_length (keys : List Int) (x : Int) :
    bisect keys x ≤ keys.length :=
  (bisectAux_bounds keys x keys.length 0 keys.length (Nat.zero_le _)).2

theorem sorted_getD_mono {keys : List Int} (hs : keys.Sorted (· ≤ ·))
    {i j : Nat} (hij : i ≤ j) (hj : j < keys.length) :
    keys.getD i 0 ≤ keys.getD j 0 := by
  induction keys generalizing i j with
  | nil => simp at hj
  | cons a t ih =>
    rcases List.sorted_cons.mp hs with ⟨ha, ht⟩
    cases i with
    | zero =>
      cases j with
      | zero => simp
      | succ m =>
        simp only [List.getD_cons_zero, List.getD_cons_succ]
        exact ha _ (getD_mem (by simpa using hj))
    | succ n =>
      cases j with
      | zero => omega
      | succ m =>
        simp only [List.getD_cons_succ]
        exact ih ht (by omega) (by simpa using hj)

theorem bisectAux_spec (keys : List Int) (x : Int) (hs : keys.Sorted (· ≤ ·)) :
    ∀ (fuel lo hi : Nat), hi - lo ≤ fuel → lo ≤ hi → hi ≤ keys.length →
      (∀ j, j < lo → keys.getD j 0 ≤ x) →
      (∀ j, hi ≤ j → j < keys.length → x < keys.getD j 0) →
      (∀ j, j < bisectAux keys x fuel lo hi → keys.getD j 0 ≤ x) ∧
        (∀ j, bisectAux keys x fuel lo hi ≤ j → j < keys.length →
          x < keys.getD j 0) := by
  intro fuel
  induction fuel with
  | zero =>
    intro lo hi hfuel hlh hhi hlow hhigh
    have : lo = hi := by omega
    subst this
    exact ⟨hlow, hhigh⟩
  | succ fuel ih =>
    intro lo hi hfuel hlh hhi hlow hhigh
    simp only [bisectAux]
    by_cases hlt : lo < hi
    · simp only [hlt, if_true]
      have hmidlt : (lo + hi) / 2 < hi := by omega
      have hmidge : lo ≤ (lo + hi) / 2 := by omega
      by_cases hx : x < keys.getD ((lo + hi) / 2) 0
      · simp only [hx, if_true]
        refine ih lo ((lo + hi) / 2) (by omega) (by omega) (by omega) hlow ?_
        intro j hj hjlen
        exact lt_of_lt_of_le hx (sorted_getD_mono hs hj hjlen)
      · simp only [hx, if_false]
        refine ih ((lo + hi) / 2 + 1) hi (by omega) (by omega) hhi ?_ hhigh
        intro j hj
        exact le_trans
          (sorted_getD_mono hs (by omega : j ≤ (lo + hi) / 2) (by omega))
          (not_lt.mp hx)
    · have heq : lo = hi := by omega
      subst heq
      rw [if_neg hlt]
      exact ⟨hlow, hhigh⟩

theorem countP_of_indices (l : List Int) (x : Int) :
    ∀ (r : Nat), r ≤ l.length →
      (∀ j, j < r → l.getD j 0 ≤ x) →
      (∀ j, r ≤ j → j < l.length → x < l.getD j 0) →
      r = l.countP (fun k => decide (k ≤ x)) := by
  induction l with
  | nil => intro r hr _ _; simpa using hr
  | cons a t ih =>
    intro r hr hlow hhigh
    cases r with
    | zero =>
      have : ∀ k ∈ a :: t, ¬ (decide (k ≤ x) = true) := by
        intro k hk
        rcases List.mem_iff_get.mp hk with ⟨⟨j, hj⟩, rfl⟩
        have := hhigh j (Nat.zero_le _) (by simpa using hj)
        have hget : (a :: t).get ⟨j, hj⟩ = (a :: t).getD j 0 := by
          rw [List.getD_eq_getElem?_getD, List.getElem?_eq_getElem hj]
          rfl
        simp only [hget, decide_eq_true_eq]
        omega
      rw [List.countP_eq_zero.mpr this]
    | succ r' =>
      have ha : a ≤ x := by simpa using hlow 0 (Nat.succ_pos _)
      rw [List.countP_cons_of_pos _ _ (by simpa using ha)]
      have := ih r' (by simpa using hr)
        (fun j hj => by simpa using hlow (j + 1) (by omega))
        (fun j hj hjl => by simpa using hhigh (j + 1) (by omega) (by simpa using hjl))
      omega

theorem bisect_sorted_eq {keys : List Int} (x : Int)
    (hs : keys.Sorted (· ≤ ·)) :
    bisect keys x = keys.countP (fun k => decide (k ≤ x)) := by
  have hspec := bisectAux_spec keys x hs keys.length 0 keys.length
    (by omega) (Nat.zero_le _) le_rfl
    (fun j hj => absurd hj (by omega))
    (fun j hj hjl => absurd hjl (by omega))
  exact countP_of_indices keys x _ (bisect_le_length keys x) hspec.1 hspec.2

/-! ### Sorted histories: characterizing retrieval and insertion -/

theorem hsorted_keys {h : List File} (hs : HSorted h) :
    (h.map File.created_timestamp).Sorted (· ≤ ·) :=
  List.pairwise_map.mpr hs

theorem hsorted_count_eq {h : List File} {t : Int} (hs : HSorted h) :
    h.countP (createdLE t) = (prefixLE h t).length := by
  induction h with
  | nil => simp [prefixLE]
  | cons a tl ih =>
    rcases List.sorted_cons.mp hs with ⟨ha, htl⟩
    by_cases hat : createdLE t a = true
    · rw [List.countP_cons_of_pos _ _ hat]
      simp only [prefixLE, List.takeWhile_cons, hat, if_true, List.length_cons]
      rw [ih htl]
      rfl
    · rw [List.countP_cons_of_neg _ _ hat]
      have hzero : ∀ b ∈ tl, ¬ (createdLE t b = true) := by
        intro b hb hbt
        apply hat
        have h1 : a.created_timestamp ≤ b.created_timestamp := ha b hb
        have h2 : b.created_timestamp ≤ t := by simpa [createdLE] using hbt
        simp only [createdLE, decide_eq_true_eq]
        omega
      rw [List.countP_eq_zero.mpr hzero]
      simp [prefixLE, List.takeWhile_cons, hat]

theorem take_len_prefixLE (h : List File) (t : Int) :
    h.take (prefixLE h t).length = prefixLE h t :=
  (List.prefix_iff_eq_take.mp (List.takeWhile_prefix _)).symm

theorem drop_len_prefixLE (h : List File) (t : Int) :
    h.drop (prefixLE h t).length = suffixGT h t := by
  have h1 : prefixLE h t ++ suffixGT h t = h :=
    List.takeWhile_append_dropWhile _ _
  have h2 : h.take (prefixLE h t).length ++ h.drop (prefixLE h t).length = h :=
    List.take_append_drop _ _
  rw [take_len_prefixLE] at h2
  exact List.append_cancel_left (h2.trans h1.symm)

theorem mem_prefixLE_le {h : List File} {t : Int} {f : File}
    (hf : f ∈ prefixLE h t) : f.created_timestamp ≤ t := by
  have := List.mem_takeWhile_imp hf
  simpa [createdLE] using this

theorem mem_suffixGT_gt {h : List File} {t : Int} (hs : HSorted h) :
    ∀ f ∈ suffixGT h t, t < f.created_timestamp := by
  induction h with
  | nil => simp [suffixGT]
  | cons a tl ih =>
    rcases List.sorted_cons.mp hs with ⟨ha, htl⟩
    by_cases hat : createdLE t a = true
    · simpa [suffixGT, List.dropWhile_cons, hat] using ih htl
    · intro f hf
      simp only [suffixGT, List.dropWhile_cons, hat, if_false] at hf
      have hna : ¬ (a.created_timestamp ≤ t) := by simpa [createdLE] using hat
      rcases List.mem_cons.mp hf with rfl | hftl
      · omega
      · have := ha f hftl
        omega

theorem bisect_hist {h : List File} (t : Int) (hs : HSorted h) :
    bisect (h.map File.created_timestamp) t = (prefixLE h t).length := by
  rw [bisect_sorted_eq t (hsorted_keys hs), List.countP_map]
  exact hsorted_count_eq hs

theorem retrieveHist_nil (t : Int) : retrieveHist [] t = none := rfl

theorem retrieveHist_sorted {h : List File} {t : Int} (hs : HSorted h) :
    retrieveHist h t =
      match (prefixLE h t).getLast? with
      | none => none
      | some f => if f.activeAt t then some f else none := by
  simp only [retrieveHist, bisect_hist t hs]
  rcases hp : prefixLE h t with _ | ⟨p, ps⟩
  · simp
  · have hgd : h.getD ((p :: ps).length - 1) default
        = (p :: ps).getLast (by simp) := by
      have hsplit : prefixLE h t ++ suffixGT h t = h :=
        List.takeWhile_append_dropWhile _ _
      conv_lhs => rw [← hsplit, hp]
      rw [List.getD_append _ _ _ _ (by simp), getD_length_sub_one]
    rw [hgd, List.getLast?_eq_getLast _ (by simp : p :: ps ≠ [])]
    simp

theorem retrieveFile_eq (s : Store) (t : Int) (n : String) :
    retrieveFile s t n = retrieveHist (historyOf s n) t := by
  unfold retrieveFile historyOf
  cases hl : lookupHist s n with
  | none => simp [retrieveHist_nil]
  | some h =>
    cases h with
    | nil => simp [retrieveHist_nil]
    | cons a tl => simp

theorem retrieveHist_active {h : List File} {t : Int} {f : File}
    (hr : retrieveHist h t = some f) : f ∈ h ∧ f.activeAt t = true := by
  simp only [retrieveHist] at hr
  by_cases h0 : bisect (h.map File.created_timestamp) t = 0
  · simp [h0] at hr
  · rw [if_neg h0] at hr
    split at hr
    · cases hr
      have hlt : bisect (h.map File.created_timestamp) t - 1 < h.length := by
        have := bisect_le_length (h.map File.created_timestamp) t
        rw [List.length_map] at this
        omega
      exact ⟨getD_mem hlt, by assumption⟩
    · cases hr

theorem insortFile_sorted_eq {h : List File} (hs : HSorted h) (f : File) :
    insortFile h f =
      prefixLE h f.created_timestamp ++ f :: suffixGT h f.created_timestamp := by
  simp only [insortFile]
  rw [bisect_hist _ hs, take_len_prefixLE, drop_len_prefixLE]

theorem insortFile_hsorted {h : List File} (hs : HSorted h) (f : File) :
    HSorted (insortFile h f) := by
  rw [insortFile_sorted_eq hs]
  rw [HSorted, List.Sorted, List.pairwise_append]
  refine ⟨List.Pairwise.sublist (List.takeWhile_prefix _).sublist hs, ?_, ?_⟩
  · rw [List.pairwise_cons]
    refine ⟨fun b hb => le_of_lt (mem_suffixGT_gt hs b hb), ?_⟩
    exact List.Pairwise.sublist (List.dropWhile_sublist _) hs
  · intro a ha b hb
    have ha' : a.created_timestamp ≤ f.created_timestamp := mem_prefixLE_le ha
    rcases List.mem_cons.mp hb with rfl | hb'
    · exact ha'
    · have := mem_suffixGT_gt hs b hb'
      omega

theorem mem_insortFile {h : List File} {f g : File} :
    g ∈ insortFile h f ↔ g ∈ h ∨ g = f := by
  simp only [insortFile]
  constructor
  · intro hg
    rcases List.mem_append.mp hg with h1 | h2
    · exact Or.inl ((List.take_sublist _ _).subset h1)
    · rcases List.mem_cons.mp h2 with rfl | h3
      · exact Or.inr rfl
      · exact Or.inl ((List.drop_sublist _ _).subset h3)
  · intro hg
    rcases hg with hg | rfl
    · rw [← List.take_append_drop
        (bisect (h.map File.created_timestamp) f.created_timestamp) h] at hg
      rcases List.mem_append.mp hg with h1 | h2
      · exact List.mem_append.mpr (Or.inl h1)
      · exact List.mem_append.mpr (Or.inr (List.mem_cons_of_mem _ h2))
    · exact List.mem_append.mpr (Or.inr (List.mem_cons_self _ _))

/-! ### Store-level lemmas -/

theorem lookup_setHist_self (s : Store) (n : String) (h : List File) :
    lookupHist (setHist s n h) n = some h := by
  induction s with
  | nil => simp [setHist, lookupHist]
  | cons e rest ih =>
    obtain ⟨k, h0⟩ := e
    by_cases hk : k = n
    · simp [setHist, hk, lookupHist]
    · simp [setHist, hk, lookupHist, ih]

theorem lookup_setHist_ne {n m : String} (hnm : n ≠ m) (s : Store)
    (h : List File) : lookupHist (setHist s n h) m = lookupHist s m := by
  induction s with
  | nil => simp [setHist, lookupHist, hnm]
  | cons e rest ih =>
    obtain ⟨k, h0⟩ := e
    by_cases hk : k = n
    · subst hk
      simp [setHist, lookupHist, hnm, ih]
    · simp [setHist, hk, lookupHist, ih]

theorem mem_setHist {s : Store} {n : String} {h : List File} {e : String × List File}
    (he : e ∈ setHist s n h) : e ∈ s ∨ e = (n, h) := by
  induction s with
  | nil => simpa [setHist] using he
  | cons e0 rest ih =>
    obtain ⟨k, h0⟩ := e0
    by_cases hk : k = n
    · subst hk
      simp only [setHist, if_pos rfl] at he
      rcases List.mem_cons.mp he with rfl | h2
      · exact Or.inr rfl
      · exact Or.inl (List.mem_cons_of_mem _ h2)
    · simp only [setHist, if_neg hk] at he
      rcases List.mem_cons.mp he with rfl | h2
      · exact Or.inl (List.mem_cons_self _ _)
      · rcases ih h2 with h3 | h3
        · exact Or.inl (List.mem_cons_of_mem _ h3)
        · exact Or.inr h3

theorem lookup_mem {s : Store} {n : String} {h : List File}
    (hl : lookupHist s n = some h) : (n, h) ∈ s := by
  induction s with
  | nil => simp [lookupHist] at hl
  | cons e rest ih =>
    obtain ⟨k, h0⟩ := e
    by_cases hk : k = n
    · subst hk
      rw [lookupHist, if_pos rfl] at hl
      cases hl
      exact List.mem_cons_self _ _
    · rw [lookupHist, if_neg hk] at hl
      exact List.mem_cons_of_mem _ (ih hl)

theorem WFs_historyOf {s : Store} (hws : WFs s) (n : String) :
    HSorted (historyOf s n) := by
  unfold historyOf
  cases hl : lookupHist s n with
  | none => exact List.sorted_nil
  | some h => exact hws _ (lookup_mem hl)

theorem WFs_setHist {s : Store} (hws : WFs s) {n : String} {h : List File}
    (hh : HSorted h) : WFs (setHist s n h) := by
  intro e he
  rcases mem_setHist he with h1 | rfl
  · exact hws e h1
  · exact hh

theorem WFs_insertFile {s : Store} (hws : WFs s) (f : File) :
    WFs (insertFile s f) :=
  WFs_setHist hws (insortFile_hsorted (WFs_historyOf hws f.name) f)

theorem historyOf_insertFile_self (s : Store) (f : File) :
    historyOf (insertFile s f) f.name = insortFile (historyOf s f.name) f := by
  unfold insertFile
  show (lookupHist (setHist s f.name _) f.name).getD [] = _
  rw [lookup_setHist_self]
  rfl

theorem historyOf_insertFile_ne (s : Store) (f : File) {m : String}
    (hm : f.name ≠ m) : historyOf (insertFile s f) m = historyOf s m := by
  unfold insertFile historyOf
  rw [lookup_setHist_ne hm]

/-! ### Operation-level helper lemmas -/

theorem getAt_ok {s : Store} {u : Int} {name : String} (hu : ¬ u < 0) :
    getAt s u name = .ok ((retrieveFile s u name).map File.size) := by
  unfold getAt
  rw [if_neg hu]

theorem uploadAt_ok {s : Store} {t size : Int} {name : String} {ttl : TTL}
    (ht : ¬ t < 0) (hn : ¬ name = "") (hsz : ¬ size < 0)
    (httl : ttl.nonpos = false)
    (hdup : retrieveFile s t name = none) :
    uploadAt s t name size ttl = .ok (insertFile s ⟨name, size, t, ttl⟩) := by
  unfold uploadAt
  rw [if_neg ht, if_neg hn, if_neg hsz, if_neg (by simp [httl]),
    if_neg (by simp [hdup])]

theorem uploadAt_ok_inv {s s' : Store} {t size : Int} {name : String}
    {ttl : TTL} (h : uploadAt s t name size ttl = .ok s') :
    ttl.nonpos = false ∧ retrieveFile s t name = none ∧
      s' = insertFile s ⟨name, size, t, ttl⟩ := by
  rw [uploadAt] at h
  by_cases h1 : t < 0
  · rw [if_pos h1] at h; exact Except.noConfusion h
  rw [if_neg h1] at h
  by_cases h2 : name = ""
  · rw [if_pos h2] at h; exact Except.noConfusion h
  rw [if_neg h2] at h
  by_cases h3 : size < 0
  · rw [if_pos h3] at h; exact Except.noConfusion h
  rw [if_neg h3] at h
  by_cases h4 : ttl.nonpos = true
  · rw [if_pos h4] at h; exact Except.noConfusion h
  rw [if_neg h4] at h
  by_cases h5 : (retrieveFile s t name).isSome = true
  · rw [if_pos h5] at h; exact Except.noConfusion h
  rw [if_neg h5] at h
  cases h
  refine ⟨by simpa using h4, ?_, rfl⟩
  cases hr : retrieveFile s t name with
  | none => rfl
  | some f => exact absurd (by rw [hr]; rfl) h5

theorem copyAt_ok_inv {s s' : Store} {t : Int} {source dest : String}
    (h : copyAt s t source dest = .ok s') :
    (source = dest ∧ s' = s) ∨
      (∃ f, retrieveFile s t source = some f ∧ source ≠ dest ∧
        s' = insertFile s
          ⟨dest, f.size, t, f.ttl.sub (t - f.created_timestamp)⟩) := by
  rw [copyAt] at h
  by_cases h1 : t < 0
  · rw [if_pos h1] at h; exact Except.noConfusion h
  rw [if_neg h1] at h
  cases hr : retrieveFile s t source with
  | none => rw [hr] at h; exact Except.noConfusion h
  | some f =>
    rw [hr] at h
    change (if source = dest then Except.ok s
      else Except.ok (insertFile s ⟨dest, f.size, t,
        f.ttl.sub (t - f.created_timestamp)⟩)) = Except.ok s' at h
    by_cases hsd : source = dest
    · rw [if_pos hsd] at h
      cases h
      exact Or.inl ⟨hsd, rfl⟩
    · rw [if_neg hsd] at h
      cases h
      exact Or.inr ⟨f, rfl, hsd, rfl⟩

theorem rollback_ok_inv {s s' : Store} {t : Int}
    (h : rollback s t = .ok s') :
    s' = s.filterMap (fun e =>
      let i := bisect (e.2.map File.created_timestamp) t
      if i = 0 then none else some (e.1, e.2.take i)) := by
  rw [rollback] at h
  by_cases h1 : t < 0
  · rw [if_pos h1] at h; exact Except.noConfusion h
  · rw [if_neg h1] at h; cases h; rfl

theorem ttl_nonpos_false_nonneg {ttl : TTL} (h : ttl.nonpos = false) :
    ttlNonneg ttl := by
  cases ttl with
  | int n =>
    simp only [TTL.nonpos, decide_eq_false_iff_not, not_le] at h
    simp only [ttlNonneg]
    omega
  | unbounded => trivial

theorem ttl_lt_not_intLe {v : TTL} {t : Int} (h : ttlLtInt v t = true) :
    intLe t v = false := by
  cases v with
  | int n =>
    simp only [ttlLtInt, decide_eq_true_eq] at h
    simp only [intLe, decide_eq_false_iff_not]
    omega
  | unbounded => simp [ttlLtInt] at h

/-- The record `copy_at` inserts expires at the same absolute instant as the
source record: `t + (ttl - (t - created)) = created + ttl`, with the sentinel
absorbing both operations. -/
theorem copy_rec_last_valid (f : File) (t : Int) (n : String) :
    File.get_last_valid_timestamp
        ⟨n, f.size, t, f.ttl.sub (t - f.created_timestamp)⟩ =
      f.get_last_valid_timestamp := by
  cases httl : f.ttl with
  | int m =>
    simp only [File.get_last_valid_timestamp, TTL.sub, TTL.addTo, httl,
      TTL.int.injEq]
    ring
  | unbounded => simp [File.get_last_valid_timestamp, TTL.sub, TTL.addTo, httl]

theorem retrieveHist_singleton (f : File) (u : Int) :
    retrieveHist [f] u = if f.activeAt u then some f else none := by
  rw [retrieveHist_sorted (List.sorted_singleton f)]
  by_cases hc : createdLE u f = true
  · simp [prefixLE, List.takeWhile_cons, hc]
  · have hf : f.activeAt u = false := by
      have : ¬ f.created_timestamp ≤ u := by simpa [createdLE] using hc
      simp [File.activeAt, this]
    simp [prefixLE, List.takeWhile_cons, hc, hf]

theorem takeWhile_congr_mem {l : List File} {p q : File → Bool}
    (h : ∀ a ∈ l, p a = q a) : l.takeWhile p = l.takeWhile q := by
  induction l with
  | nil => rfl
  | cons a t ih =>
    simp only [List.takeWhile_cons, h a (List.mem_cons_self a t)]
    cases hq : q a
    · rfl
    · simp only [if_pos rfl]
      rw [ih (fun b hb => h b (List.mem_cons_of_mem _ hb))]

theorem hsorted_filter_eq_prefixLE {h : List File} (hs : HSorted h) (t : Int) :
    h.filter (createdLE t) = prefixLE h t := by
  induction h with
  | nil => rfl
  | cons a tl ih =>
    rcases List.sorted_cons.mp hs with ⟨ha, htl⟩
    by_cases hc : createdLE t a = true
    · simp only [List.filter_cons, hc, if_pos rfl, prefixLE,
        List.takeWhile_cons]
      rw [ih htl]
      rfl
    · have hnone : tl.filter (createdLE t) = [] := by
        rw [List.filter_eq_nil_iff]
        intro b hb hbt
        apply hc
        have h1 : a.created_timestamp ≤ b.created_timestamp := ha b hb
        have h2 : b.created_timestamp ≤ t := by simpa [createdLE] using hbt
        simp only [createdLE, decide_eq_true_eq]
        omega
      simp [List.filter_cons, hc, hnone, prefixLE, List.takeWhile_cons]

theorem filterMap_id_of {α : Type} {g : α → Option α} {l : List α}
    (h : ∀ a ∈ l, g a = some a) : l.filterMap g = l := by
  induction l with
  | nil => rfl
  | cons a t ih =>
    rw [List.filterMap_cons, h a (List.mem_cons_self a t),
      ih (fun b hb => h b (List.mem_cons_of_mem _ hb))]

theorem getLast?_mem {α : Type} {l : List α} {a : α}
    (h : l.getLast? = some a) : a ∈ l := by
  cases l with
  | nil => exact Option.noConfusion h
  | cons b t =>
    rw [List.getLast?_eq_getLast _ (by simp)] at h
    cases h
    exact List.getLast_mem _

theorem TtlOK_historyOf {s : Store} (h : TtlOK s) (n : String) :
    ∀ f ∈ historyOf s n, ttlNonneg f.ttl := by
  unfold historyOf
  cases hl : lookupHist s n with
  | none => simp
  | some hist => exact h _ (lookup_mem hl)

theorem TtlOK_insertFile {s : Store} {rec : File} (h : TtlOK s)
    (hrec : ttlNonneg rec.ttl) : TtlOK (insertFile s rec) := by
  intro e he f hf
  rcases mem_setHist he with h1 | rfl
  · exact h e h1 f hf
  · rcases mem_insortFile.mp hf with h2 | rfl
    · exact TtlOK_historyOf h rec.name f h2
    · exact hrec

theorem prefixLE_append_last {A B : List File} {t : Int} (rec : File)
    (hA : ∀ a ∈ A, createdLE t a = true) (hrec : createdLE t rec = true)
    (hB : ∀ b ∈ B, createdLE t b = false) :
    prefixLE (A ++ rec :: B) t = A ++ [rec] := by
  induction A with
  | nil =>
    simp only [List.nil_append, prefixLE, List.takeWhile_cons, hrec, if_pos rfl]
    cases B with
    | nil => rfl
    | cons b bs =>
      rw [List.takeWhile_cons, hB b (List.mem_cons_self b bs)]
      rfl
  | cons a A' ih =>
    simp only [List.cons_append, prefixLE, List.takeWhile_cons,
      hA a (List.mem_cons_self _ _), if_pos rfl]
    have := ih (fun x hx => hA x (List.mem_cons_of_mem _ hx))
    simp only [prefixLE] at this
    rw [this]
    simp

/-! ### Claim theorems -/

/-- C1, counterexample: the at-most-one-active-version invariant fails on a
reachable store. After `upload_at(10, "f", 1, ttl=5)` and a retroactive
`upload_at(0, "f", 2, ttl=100)`, both stored records of `"f"` are active at
timestamp 12: both validity windows `[0, 100]` and `[10, 15]` contain 12. -/
theorem claim_C1_counterexample :
    ((historyOf overlapStore "f").filter (fun f => f.activeAt 12)).length = 2 ∧
    historyOf overlapStore "f" =
      [⟨"f", 2, 0, .int 100⟩, ⟨"f", 1, 10, .int 5⟩] :=
  ⟨rfl, rfl⟩

/-- C1, amended: a name may have several records whose validity windows all
contain `T`; what holds is that retrieval resolves at most one of them — the
history's last record with `created_at ≤ T`, returned exactly when `T` is
within its validity window — so at most one version is ever visible at `T`,
and upload's duplicate check consults only that record. -/
theorem claim_C1_one_visible_version (s : Store) (t : Int) (name : String)
    (hws : WFs s) (ht : 0 ≤ t) :
    getAt s t name = .ok
      (match (prefixLE (historyOf s name) t).getLast? with
       | none => none
       | some f => if f.activeAt t then some f.size else none) := by
  rw [getAt_ok (not_lt.mpr ht), retrieveFile_eq,
    retrieveHist_sorted (WFs_historyOf hws name)]
  cases hgl : (prefixLE (historyOf s name) t).getLast? with
  | none => rfl
  | some f =>
    by_cases ha : f.activeAt t = true
    · simp [ha]
    · simp [ha]

/-- C1, witness for the amended theorem at a concrete store. -/
theorem claim_C1_witness :
    getAt overlapStore 12 "f" = .ok (some 1) := by
  have h := claim_C1_one_visible_version overlapStore 12 "f"
    (by decide) (by decide)
  rw [h]
  rfl

/-- C2: when the source has an active record `f` at `T` and `source ≠ dest`,
`copy_at` inserts for `dest` a fresh record with the source's size,
`created_at = T` and ttl `f.ttl - (T - f.created_at)` (the sentinel passing
through unchanged); that record expires at the same absolute instant as the
source. The spec's concrete example behaves as stated. -/
theorem claim_C2_copy_inherits_remaining_ttl (s : Store) (t : Int)
    (source dest : String) (f : File) (ht : 0 ≤ t) (hsd : source ≠ dest)
    (hsrc : retrieveFile s t source = some f) :
    copyAt s t source dest = .ok (insertFile s
      ⟨dest, f.size, t, f.ttl.sub (t - f.created_timestamp)⟩) ∧
    File.get_last_valid_timestamp
        ⟨dest, f.size, t, f.ttl.sub (t - f.created_timestamp)⟩ =
      f.get_last_valid_timestamp ∧
    getAt copyTtlStore 100 "d" = .ok (some 100) ∧
    getAt copyTtlStore 101 "d" = .ok none := by
  refine ⟨?_, copy_rec_last_valid f t dest, rfl, rfl⟩
  rw [copyAt, if_neg (not_lt.mpr ht), hsrc]
  show (if source = dest then Except.ok s
    else Except.ok (insertFile s
      ⟨dest, f.size, t, f.ttl.sub (t - f.created_timestamp)⟩)) = _
  rw [if_neg hsd]

/-- C2, witness: the spec's example instantiated through the theorem. -/
theorem claim_C2_witness :
    getAt copyTtlStore 100 "d" = .ok (some 100) ∧
    getAt copyTtlStore 101 "d" = .ok none :=
  (claim_C2_copy_inherits_remaining_ttl
    (runOk (uploadAt [] 10 "s" 100 (.int 90))) 50 "s" "d"
    ⟨"s", 100, 10, .int 90⟩ (by decide) (by decide) rfl).2.2

/-- C3: on a store with sorted histories, `rollback(T)` keeps, in every
history, exactly the records with `created_at ≤ T` (in order), drops a name
entirely when no record survives, and is a no-op when every stored record has
`created_at ≤ T` (histories being nonempty, as in every reachable store). -/
theorem claim_C3_rollback_filters (s : Store) (t : Int)
    (hws : WFs s) (ht : 0 ≤ t) :
    rollback s t = .ok (s.filterMap (fun e =>
      if e.2.filter (createdLE t) = [] then none
      else some (e.1, e.2.filter (createdLE t)))) ∧
    ((∀ e ∈ s, e.2 ≠ []) → (∀ e ∈ s, ∀ f ∈ e.2, f.created_timestamp ≤ t) →
      rollback s t = .ok s) := by
  have hentry : ∀ e ∈ s,
      (if bisect (e.2.map File.created_timestamp) t = 0 then none
       else some (e.1, e.2.take (bisect (e.2.map File.created_timestamp) t))) =
      (if e.2.filter (createdLE t) = [] then none
       else some (e.1, e.2.filter (createdLE t))) := by
    intro e he
    have hs := hws e he
    rw [bisect_hist t hs, take_len_prefixLE, hsorted_filter_eq_prefixLE hs]
    by_cases hz : prefixLE e.2 t = []
    · simp [hz]
    · rw [if_neg hz, if_neg (fun hlen => hz (List.length_eq_zero.mp hlen))]
  constructor
  · rw [rollback, if_neg (not_lt.mpr ht)]
    exact congrArg Except.ok (List.filterMap_congr hentry)
  · intro hne hall
    rw [rollback, if_neg (not_lt.mpr ht)]
    refine congrArg Except.ok (filterMap_id_of ?_)
    intro e he
    have hfull : e.2.filter (createdLE t) = e.2 :=
      List.filter_eq_self.mpr (fun f hf => by
        simp only [createdLE, decide_eq_true_eq]
        exact hall e he f hf)
    have := hentry e he
    rw [hfull, if_neg (hne e he)] at this
    rw [this, Prod.mk.eta]

/-- C3, witness: rolling `overlapStore` back to 0 keeps only the record
created at 0, and rolling back into the future is a no-op. -/
theorem claim_C3_witness :
    rollback overlapStore 0 = .ok [("f", [⟨"f", 2, 0, .int 100⟩])] ∧
    rollback overlapStore 1000 = .ok overlapStore :=
  ⟨((claim_C3_rollback_filters overlapStore 0 (by decide) (by decide)).1).trans
      (by rfl),
   (claim_C3_rollback_filters overlapStore 1000 (by decide) (by decide)).2
      (by decide) (by decide)⟩

/-- C5: uploading `name` with a bounded positive ttl into a store holding no
version of `name` succeeds, and afterwards `get_at(u, name)` returns the size
for every `t ≤ u ≤ t + ttl` and not-found for every `u > t + ttl`: the last
valid instant `created_at + ttl` is inclusive. -/
theorem claim_C5_expiry_boundary (s : Store) (t size d : Int) (name : String)
    (ht : 0 ≤ t) (hn : name ≠ "") (hsz : 0 ≤ size) (hd : 0 < d)
    (hh : historyOf s name = []) :
    uploadAt s t name size (.int d) =
      .ok (insertFile s ⟨name, size, t, .int d⟩) ∧
    (∀ u, t ≤ u → u ≤ t + d →
      getAt (insertFile s ⟨name, size, t, .int d⟩) u name = .ok (some size)) ∧
    (∀ u, t + d < u →
      getAt (insertFile s ⟨name, size, t, .int d⟩) u name = .ok none) := by
  have hdup : retrieveFile s t name = none := by
    rw [retrieveFile_eq, hh]
    rfl
  have httl : TTL.nonpos (.int d) = false := by
    simp only [TTL.nonpos, decide_eq_false_iff_not, not_le]
    omega
  have hhist : historyOf (insertFile s ⟨name, size, t, .int d⟩) name
      = [⟨name, size, t, .int d⟩] := by
    rw [historyOf_insertFile_self, hh]
    rfl
  refine ⟨uploadAt_ok (not_lt.mpr ht) hn (not_lt.mpr hsz) httl hdup, ?_, ?_⟩
  · intro u hu1 hu2
    rw [getAt_ok (by omega), retrieveFile_eq, hhist, retrieveHist_singleton]
    have hact : File.activeAt ⟨name, size, t, .int d⟩ u = true := by
      simp only [File.activeAt, File.get_last_valid_timestamp, TTL.addTo,
        intLe, Bool.and_eq_true, decide_eq_true_eq]
      exact ⟨hu1, hu2⟩
    rw [if_pos hact]
    rfl
  · intro u hu
    rw [getAt_ok (by omega), retrieveFile_eq, hhist, retrieveHist_singleton]
    have hact : File.activeAt ⟨name, size, t, .int d⟩ u = false := by
      simp only [File.activeAt, File.get_last_valid_timestamp, TTL.addTo,
        intLe, Bool.and_eq_false_iff, decide_eq_false_iff_not, not_le]
      right
      omega
    rw [if_neg (by simp [hact])]
    rfl

/-- C5, witness: the spec's expiry-boundary example through the theorem. -/
theorem claim_C5_witness :
    getAt (insertFile [] ⟨"f", 100, 10, .int 90⟩) 100 "f" = .ok (some 100) ∧
    getAt (insertFile [] ⟨"f", 100, 10, .int 90⟩) 101 "f" = .ok none :=
  ⟨(claim_C5_expiry_boundary [] 10 100 90 "f" (by decide) (by decide)
      (by decide) (by decide) rfl).2.1 100 (by decide) (by decide),
   (claim_C5_expiry_boundary [] 10 100 90 "f" (by decide) (by decide)
      (by decide) (by decide) rfl).2.2 101 (by decide)⟩

/-- C6: `copy_at` succeeds even when `dest` already has an active version at
`T` (there is no duplicate check on `dest`), and afterwards `get_at(T, dest)`
returns the source's size: the new record, inserted to the right of any
equal-`created_at` record, supersedes the previously active one. -/
theorem claim_C6_copy_overwrites_active_dest (s : Store) (t : Int)
    (source dest : String) (f g : File) (hws : WFs s) (ht : 0 ≤ t)
    (hsd : source ≠ dest) (hsrc : retrieveFile s t source = some f)
    (hdst : retrieveFile s t dest = some g) :
    copyAt s t source dest = .ok (insertFile s
      ⟨dest, f.size, t, f.ttl.sub (t - f.created_timestamp)⟩) ∧
    getAt (insertFile s ⟨dest, f.size, t, f.ttl.sub (t - f.created_timestamp)⟩)
      t dest = .ok (some f.size) := by
  constructor
  · rw [copyAt, if_neg (not_lt.mpr ht), hsrc]
    show (if source = dest then Except.ok s
      else Except.ok (insertFile s
        ⟨dest, f.size, t, f.ttl.sub (t - f.created_timestamp)⟩)) = _
    rw [if_neg hsd]
  · have hsorted := WFs_historyOf hws dest
    have hhist : historyOf (insertFile s
        ⟨dest, f.size, t, f.ttl.sub (t - f.created_timestamp)⟩) dest
        = insortFile (historyOf s dest)
          ⟨dest, f.size, t, f.ttl.sub (t - f.created_timestamp)⟩ :=
      historyOf_insertFile_self s _
    rw [getAt_ok (not_lt.mpr ht), retrieveFile_eq, hhist,
      retrieveHist_sorted (insortFile_hsorted hsorted _),
      insortFile_sorted_eq hsorted]
    have hpre : prefixLE (prefixLE (historyOf s dest) t ++
        ⟨dest, f.size, t, f.ttl.sub (t - f.created_timestamp)⟩ ::
          suffixGT (historyOf s dest) t) t
        = prefixLE (historyOf s dest) t ++
          [⟨dest, f.size, t, f.ttl.sub (t - f.created_timestamp)⟩] := by
      refine prefixLE_append_last _ (fun a ha => List.mem_takeWhile_imp ha)
        (by simp [createdLE]) ?_
      intro b hb
      have := mem_suffixGT_gt hsorted b hb
      simp only [createdLE, decide_eq_false_iff_not, not_le]
      omega
    rw [hpre, List.getLast?_concat]
    have hact : File.activeAt
        ⟨dest, f.size, t, f.ttl.sub (t - f.created_timestamp)⟩ t = true := by
      rw [retrieveFile_eq] at hsrc
      have hsrcact := (retrieveHist_active hsrc).2
      simp only [File.activeAt, Bool.and_eq_true, decide_eq_true_eq] at hsrcact ⊢
      refine ⟨le_refl t, ?_⟩
      rw [copy_rec_last_valid]
      exact hsrcact.2
    simp [hact]

/-- C6, witness: source and dest both uploaded at timestamp 5, copy at 5 —
the equal-`created_at` tie resolves to the later-inserted copy. -/
theorem claim_C6_witness :
    getAt (insertFile tieStore ⟨"d", 2, 5, TTL.sub .unbounded (5 - 5)⟩)
      5 "d" = .ok (some 2) :=
  (claim_C6_copy_overwrites_active_dest tieStore 5 "s" "d"
    ⟨"s", 2, 5, .unbounded⟩ ⟨"d", 1, 5, .unbounded⟩
    (by decide) (by decide) (by decide) rfl rfl).2

/-- C7, counterexample: copying a file at its last valid instant stores a
record with ttl exactly 0 — so not every stored record has a positive or
unbounded ttl. -/
theorem claim_C7_counterexample :
    historyOf ttlZeroStore "d" = [⟨"d", 100, 100, .int 0⟩] ∧
    ((historyOf ttlZeroStore "d").filter
      (fun f => decide (f.ttl = TTL.int 0))).length = 1 :=
  ⟨rfl, rfl⟩

/-- C7, amended: every record stored by the operations has a ttl that is the
unbounded sentinel or a non-negative integer (upload inserts only positive or
unbounded ttls; a copy's remaining ttl can reach exactly zero, never below,
because the source must still be active at the copy's timestamp). -/
theorem claim_C7_ttl_never_negative (s s' : Store) :
    (∀ t name size ttl, TtlOK s →
      uploadAt s t name size ttl = .ok s' → TtlOK s') ∧
    (∀ t source dest, TtlOK s →
      copyAt s t source dest = .ok s' → TtlOK s') ∧
    (∀ t, TtlOK s → rollback s t = .ok s' → TtlOK s') := by
  refine ⟨?_, ?_, ?_⟩
  · intro t name size ttl hok h
    obtain ⟨hnp, -, rfl⟩ := uploadAt_ok_inv h
    exact TtlOK_insertFile hok (ttl_nonpos_false_nonneg hnp)
  · intro t source dest hok h
    rcases copyAt_ok_inv h with ⟨-, rfl⟩ | ⟨f, hsrc, -, rfl⟩
    · exact hok
    · refine TtlOK_insertFile hok ?_
      rw [retrieveFile_eq] at hsrc
      have hact := (retrieveHist_active hsrc).2
      simp only [File.activeAt, Bool.and_eq_true, decide_eq_true_eq] at hact
      cases httl : f.ttl with
      | int n =>
        have hle : t ≤ f.created_timestamp + n := by
          have := hact.2
          rw [File.get_last_valid_timestamp, httl] at this
          simpa [TTL.addTo, intLe] using this
        show ttlNonneg (TTL.int (n - (t - f.created_timestamp)))
        simp only [ttlNonneg]
        omega
      | unbounded => trivial
  · intro t hok h
    rw [rollback_ok_inv h]
    intro e he f hf
    rcases List.mem_filterMap.mp he with ⟨e0, he0, hg⟩
    by_cases hz : bisect (e0.2.map File.created_timestamp) t = 0
    · simp [hz] at hg
    · rw [if_neg hz] at hg
      cases hg
      exact hok e0 he0 f ((List.take_sublist _ _).subset hf)

/-- C7, witness for the amended preservation theorem (upload case). -/
theorem claim_C7_witness :
    TtlOK (insertFile [] ⟨"f", 1, 0, .int 5⟩) :=
  (claim_C7_ttl_never_negative [] (insertFile [] ⟨"f", 1, 0, .int 5⟩)).1
    0 "f" 1 (.int 5) (by decide) rfl

/-- C8, counterexample: with records `(created 0, ttl 100)` and
`(created 5, ttl 1)` for `"f"` (a reachable state via a retroactive upload),
`get_at(0)` returns 2 but `get_at(6)` returns 1 even though 6 does not exceed
the `last_valid_at` (100) of the version active at 0 — a later-created record
supersedes it, violating the claim as stated. -/
theorem claim_C8_counterexample :
    getAt shadowStore 0 "f" = .ok (some 2) ∧
    getAt shadowStore 6 "f" = .ok (some 1) ∧
    retrieveFile shadowStore 0 "f" = some ⟨"f", 2, 0, .int 100⟩ ∧
    intLe 6 (File.get_last_valid_timestamp ⟨"f", 2, 0, .int 100⟩) = true :=
  ⟨rfl, rfl, rfl, rfl⟩

/-- C8, amended: monotonic visibility holds provided additionally no record
of the name was created in the window `(t1, t2]`: then a value returned at
`t1` is still returned at `t2` whenever `t2` does not exceed the resolved
record's `last_valid_at`. -/
theorem claim_C8_monotonic_visibility (s : Store) (t1 t2 : Int)
    (name : String) (f : File) (hws : WFs s) (ht1 : 0 ≤ t1) (ht12 : t1 < t2)
    (hres : retrieveFile s t1 name = some f)
    (hvalid : intLe t2 f.get_last_valid_timestamp = true)
    (hgap : ∀ g ∈ historyOf s name,
      ¬ (t1 < g.created_timestamp ∧ g.created_timestamp ≤ t2)) :
    getAt s t2 name = .ok (some f.size) ∧
    getAt s t1 name = .ok (some f.size) := by
  have hsorted := WFs_historyOf hws name
  rw [retrieveFile_eq, retrieveHist_sorted hsorted] at hres
  rcases hgl : (prefixLE (historyOf s name) t1).getLast? with _ | f0
  · rw [hgl] at hres
    exact Option.noConfusion hres
  · rw [hgl] at hres
    by_cases ha : f0.activeAt t1 = true
    · simp only [ha, if_true] at hres
      cases hres
      have hpre : prefixLE (historyOf s name) t2
          = prefixLE (historyOf s name) t1 := by
        apply takeWhile_congr_mem
        intro g hg
        simp only [createdLE]
        by_cases hgt : g.created_timestamp ≤ t1
        · rw [decide_eq_true (show g.created_timestamp ≤ t2 by omega),
            decide_eq_true hgt]
        · have h2 : ¬ g.created_timestamp ≤ t2 :=
            fun hc => hgap g hg ⟨by omega, hc⟩
          rw [decide_eq_false h2, decide_eq_false hgt]
      constructor
      · rw [getAt_ok (by omega), retrieveFile_eq,
          retrieveHist_sorted hsorted, hpre, hgl]
        have hact2 : f.activeAt t2 = true := by
          simp only [File.activeAt, Bool.and_eq_true, decide_eq_true_eq] at ha ⊢
          exact ⟨by omega, hvalid⟩
        simp [hact2]
      · rw [getAt_ok (by omega), retrieveFile_eq,
          retrieveHist_sorted hsorted, hgl]
        simp [ha]
    · simp only [ha, if_false] at hres
      exact Option.noConfusion hres

/-- C8, witness: a single record valid through 100 stays visible from 0
to 6. -/
theorem claim_C8_witness :
    getAt (runOk (uploadAt [] 0 "f" 2 (.int 100))) 6 "f" = .ok (some 2) ∧
    getAt (runOk (uploadAt [] 0 "f" 2 (.int 100))) 0 "f" = .ok (some 2) :=
  claim_C8_monotonic_visibility _ 0 6 "f" ⟨"f", 2, 0, .int 100⟩
    (by decide) (by decide) (by decide) rfl (by decide) (by decide)

/-- C9, counterexample: resolving an absent name is not surfaced as an error
by `get_at` (it returns `None`) nor by `search_at` (it returns an empty
list); only `copy_at` raises for a missing source. -/
theorem claim_C9_counterexample :
    getAt ([] : Store) 0 "f" = .ok none ∧
    searchAt ([] : Store) 0 "x" = .ok [] ∧
    copyAt ([] : Store) 0 "s" "d" = .error "Source file does not exist." :=
  ⟨rfl, rfl, rfl⟩

/-- C9, amended: only `copy_at` surfaces a missing name as an error, with the
stable message "Source file does not exist."; `get_at` reports an absent or
inactive name by returning `None`, and `search_at` by returning an empty
list. -/
theorem claim_C9_only_copy_raises_notfound (s : Store) (t : Int)
    (name source dest pre : String) (ht : ¬ t < 0)
    (hname : retrieveFile s t name = none)
    (hsrc : retrieveFile s t source = none) :
    getAt s t name = .ok none ∧
    copyAt s t source dest = .error "Source file does not exist." ∧
    ((if pre = "" then getActiveFiles s t
      else (getActiveFiles s t).filter (fun f => strStartsWith f.name pre))
        = [] →
      searchAt s t pre = .ok []) := by
  refine ⟨?_, ?_, ?_⟩
  · rw [getAt_ok ht, hname]
    rfl
  · rw [copyAt, if_neg ht, hsrc]
  · intro hempty
    simp only [searchAt]
    rw [if_neg ht, hempty]
    rfl

/-- C9, witness on the empty store. -/
theorem claim_C9_witness :
    getAt ([] : Store) 0 "nope" = .ok none ∧
    copyAt ([] : Store) 0 "a" "b" = .error "Source file does not exist." ∧
    searchAt ([] : Store) 0 "p" = .ok [] :=
  ⟨(claim_C9_only_copy_raises_notfound [] 0 "nope" "a" "b" "p"
      (by decide) rfl rfl).1,
   (claim_C9_only_copy_raises_notfound [] 0 "nope" "a" "b" "p"
      (by decide) rfl rfl).2.1,
   (claim_C9_only_copy_raises_notfound [] 0 "nope" "a" "b" "p"
      (by decide) rfl rfl).2.2 rfl⟩

/-- C10: upload's duplicate check guards only the supplied timestamp: when
every existing record of the name was either created strictly after `T` or
has already expired by `T`, `upload_at(T, ...)` with valid arguments
succeeds, and the new record lands at its sorted position between the
records created up to `T` and those created later, all left intact. -/
theorem claim_C10_retroactive_upload (s : Store) (t size : Int)
    (name : String) (ttl : TTL) (hws : WFs s) (ht : 0 ≤ t) (hn : name ≠ "")
    (hsz : 0 ≤ size) (httl : ttl.nonpos = false)
    (hout : ∀ f ∈ historyOf s name,
      t < f.created_timestamp ∨ ttlLtInt f.get_last_valid_timestamp t = true) :
    uploadAt s t name size ttl = .ok (insertFile s ⟨name, size, t, ttl⟩) ∧
    historyOf (insertFile s ⟨name, size, t, ttl⟩) name =
      prefixLE (historyOf s name) t ++
        ⟨name, size, t, ttl⟩ :: suffixGT (historyOf s name) t ∧
    HSorted (historyOf (insertFile s ⟨name, size, t, ttl⟩) name) := by
  have hsorted := WFs_historyOf hws name
  have hdup : retrieveFile s t name = none := by
    rw [retrieveFile_eq, retrieveHist_sorted hsorted]
    rcases hgl : (prefixLE (historyOf s name) t).getLast? with _ | f0
    · rfl
    · have hmem : f0 ∈ historyOf s name :=
        (List.takeWhile_prefix _).subset (getLast?_mem hgl)
      have hle : f0.created_timestamp ≤ t := mem_prefixLE_le (getLast?_mem hgl)
      rcases hout f0 hmem with hgt | hexp
      · omega
      · have hfalse : f0.activeAt t = false := by
          simp only [File.activeAt]
          rw [ttl_lt_not_intLe hexp, Bool.and_false]
        simp [hfalse]
  refine ⟨uploadAt_ok (not_lt.mpr ht) hn (not_lt.mpr hsz) httl hdup, ?_, ?_⟩
  · rw [historyOf_insertFile_self]
    exact insortFile_sorted_eq hsorted _
  · rw [historyOf_insertFile_self]
    exact insortFile_hsorted hsorted _

/-- C10, witness: uploading at 0 under a history whose only record was
created at 10. -/
theorem claim_C10_witness :
    uploadAt (runOk (uploadAt [] 10 "f" 1 (.int 5))) 0 "f" 2 (.int 100) =
      .ok (insertFile (runOk (uploadAt [] 10 "f" 1 (.int 5)))
        ⟨"f", 2, 0, .int 100⟩) :=
  (claim_C10_retroactive_upload _ 0 2 "f" (.int 100) (by decide) (by decide)
    (by decide) (by decide) (by decide) (by decide)).1

/-! ### Verification of the `MaxHeap` operations used by `search_at` -/

namespace MaxHeap

variable {α : Type} [LinearOrder α] [Inhabited α]

theorem nth_set_eq {l : List α} {i : Nat} (a : α) (h : i < l.length) :
    nth (l.set i a) i = a := by
  induction l generalizing i with
  | nil => simp at h
  | cons b t ih =>
    cases i with
    | zero => simp [nth]
    | succ n => simpa [nth, List.set_cons_succ] using ih (by simpa using h)

theorem nth_set_ne {l : List α} {i j : Nat} (a : α) (h : i ≠ j) :
    nth (l.set i a) j = nth l j := by
  induction l generalizing i j with
  | nil => simp [nth]
  | cons b t ih =>
    cases i with
    | zero =>
      cases j with
      | zero => exact absurd rfl h
      | succ m => simp [nth]
    | succ n =>
      cases j with
      | zero => simp [nth]
      | succ m =>
        simpa [nth, List.set_cons_succ] using ih (fun hm => h (by omega))

theorem length_swap (l : List α) (i j : Nat) :
    (swap l i j).length = l.length := by
  simp [swap]

theorem nth_swap_fst {l : List α} {i j : Nat} (hi : i < l.length)
    (hj : j < l.length) : nth (swap l i j) i = nth l j := by
  unfold swap
  by_cases hij : i = j
  · subst hij
    exact nth_set_eq _ (by simpa using hi)
  · rw [nth_set_ne _ (fun h => hij h.symm), nth_set_eq _ hi]

theorem nth_swap_snd {l : List α} {i j : Nat} (hj : j < l.length) :
    nth (swap l i j) j = nth l i := by
  unfold swap
  exact nth_set_eq _ (by simpa using hj)

theorem nth_swap_other {l : List α} {i j k : Nat} (hki : k ≠ i) (hkj : k ≠ j) :
    nth (swap l i j) k = nth l k := by
  unfold swap
  rw [nth_set_ne _ (fun h => hkj h.symm), nth_set_ne _ (fun h => hki h.symm)]

theorem multiset_set (l : List α) {i : Nat} (a : α) (h : i < l.length) :
    (↑(l.set i a) : Multiset α) + {nth l i} = ↑l + {a} := by
  induction l generalizing i with
  | nil => simp at h
  | cons b t ih =>
    cases i with
    | zero =>
      show (↑(a :: t) : Multiset α) + {b} = ↑(b :: t) + {a}
      simp only [← Multiset.cons_coe, Multiset.cons_add,
        ← Multiset.singleton_add]
      abel
    | succ n =>
      show (↑(b :: t.set n a) : Multiset α) + {nth t n} = ↑(b :: t) + {a}
      simp only [← Multiset.cons_coe, Multiset.cons_add]
      rw [ih (by simpa using h)]

theorem swap_perm {l : List α} {i j : Nat} (hi : i < l.length)
    (hj : j < l.length) : (swap l i j).Perm l := by
  rw [← Multiset.coe_eq_coe]
  have hj' : j < (l.set i (nth l j)).length := by simpa using hj
  have h2 := multiset_set (l.set i (nth l j)) (nth l i) hj'
  have hnth : nth (l.set i (nth l j)) j = nth l j := by
    by_cases hij : i = j
    · subst hij; exact nth_set_eq _ hi
    · exact nth_set_ne _ hij
  rw [hnth] at h2
  have h1 := multiset_set l (nth l j) hi
  have := h2.trans h1
  exact add_right_cancel this

theorem parentIdx_lt {i : Nat} (h : 0 < i) : parentIdx i < i := by
  unfold parentIdx
  omega

theorem parentIdx_left (i : Nat) : parentIdx (2 * i + 1) = i := by
  unfold parentIdx
  omega

theorem parentIdx_right (i : Nat) : parentIdx (2 * i + 2) = i := by
  unfold parentIdx
  omega

theorem child_of_parentIdx {i j : Nat} (hj : 0 < j) (h : parentIdx j = i) :
    j = 2 * i + 1 ∨ j = 2 * i + 2 := by
  unfold parentIdx at h
  omega

theorem priorityChild_none {l : List α} {i : Nat}
    (h : priorityChild l i = none) : l.length ≤ 2 * i + 1 := by
  unfold priorityChild at h
  by_cases h1 : 2 * i + 1 ≥ l.length
  · omega
  rw [if_neg h1] at h
  by_cases h2 : 2 * i + 2 ≥ l.length
  · rw [if_pos h2] at h
    exact Option.noConfusion h
  rw [if_neg h2] at h
  by_cases h3 : nth l (2 * i + 1) > nth l (2 * i + 2)
  · rw [if_pos h3] at h
    exact Option.noConfusion h
  · rw [if_neg h3] at h
    exact Option.noConfusion h

theorem priorityChild_some {l : List α} {i c : Nat}
    (h : priorityChild l i = some c) :
    c < l.length ∧ i < c ∧ parentIdx c = i ∧
      ∀ j, 0 < j → j < l.length → parentIdx j = i → nth l j ≤ nth l c := by
  unfold priorityChild at h
  by_cases h1 : 2 * i + 1 ≥ l.length
  · rw [if_pos h1] at h
    exact Option.noConfusion h
  rw [if_neg h1] at h
  by_cases h2 : 2 * i + 2 ≥ l.length
  · rw [if_pos h2] at h
    cases h
    refine ⟨by omega, by omega, parentIdx_left i, ?_⟩
    intro j hj hjl hpj
    rcases child_of_parentIdx hj hpj with rfl | rfl
    · exact le_refl _
    · omega
  rw [if_neg h2] at h
  by_cases h3 : nth l (2 * i + 1) > nth l (2 * i + 2)
  · rw [if_pos h3] at h
    cases h
    refine ⟨by omega, by omega, parentIdx_left i, ?_⟩
    intro j hj hjl hpj
    rcases child_of_parentIdx hj hpj with rfl | rfl
    · exact le_refl _
    · exact le_of_lt h3
  · rw [if_neg h3] at h
    cases h
    refine ⟨by omega, by omega, parentIdx_right i, ?_⟩
    intro j hj hjl hpj
    rcases child_of_parentIdx hj hpj with rfl | rfl
    · exact not_lt.mp h3
    · exact le_refl _

theorem nth_append_lt {l l' : List α} {j : Nat} (h : j < l.length) :
    nth (l ++ l') j = nth l j := by
  unfold nth
  exact List.getD_append _ _ _ _ h

theorem siftUpF_perm : ∀ (fuel : Nat) (l : List α) (i : Nat), i < l.length →
    (siftUpF fuel l i).Perm l := by
  intro fuel
  induction fuel with
  | zero =>
    intro l i _
    exact List.Perm.refl l
  | succ fuel ih =>
    intro l i hi
    simp only [siftUpF]
    by_cases h0 : i = 0
    · rw [if_pos h0]
    · rw [if_neg h0]
      by_cases hcmp : nth l (parentIdx i) > nth l i
      · rw [if_pos hcmp]
      · rw [if_neg hcmp]
        have hp : parentIdx i < l.length :=
          lt_trans (parentIdx_lt (Nat.pos_of_ne_zero h0)) hi
        exact (ih (swap l i (parentIdx i)) (parentIdx i)
          (by rw [length_swap]; exact hp)).trans (swap_perm hi hp)

theorem siftUpF_isHeap : ∀ (fuel : Nat) (l : List α) (i : Nat),
    i ≤ fuel → i < l.length →
    (∀ j, j < l.length → 0 < j → j ≠ i → nth l j ≤ nth l (parentIdx j)) →
    (0 < i → ∀ j, 0 < j → j < l.length → parentIdx j = i →
      nth l j ≤ nth l (parentIdx i)) →
    IsHeap (siftUpF fuel l i) := by
  intro fuel
  induction fuel with
  | zero =>
    intro l i hfuel hi h1 h2
    have h0 : i = 0 := by omega
    subst h0
    intro j hj hj0
    exact h1 j hj hj0 (by omega)
  | succ fuel ih =>
    intro l i hfuel hi h1 h2
    simp only [siftUpF]
    by_cases h0 : i = 0
    · rw [if_pos h0]
      subst h0
      intro j hj hj0
      exact h1 j hj hj0 (by omega)
    · rw [if_neg h0]
      have hipos : 0 < i := Nat.pos_of_ne_zero h0
      have hplt : parentIdx i < i := parentIdx_lt hipos
      have hp : parentIdx i < l.length := lt_trans hplt hi
      by_cases hcmp : nth l (parentIdx i) > nth l i
      · rw [if_pos hcmp]
        intro j hj hj0
        by_cases hji : j = i
        · subst hji
          exact le_of_lt hcmp
        · exact h1 j hj hj0 hji
      · rw [if_neg hcmp]
        have hle : nth l (parentIdx i) ≤ nth l i := not_lt.mp hcmp
        apply ih (swap l i (parentIdx i)) (parentIdx i) (by omega)
          (by rw [length_swap]; exact hp)
        · intro j hj hj0 hjp
          rw [length_swap] at hj
          by_cases hji : j = i
          · subst hji
            rw [nth_swap_fst hi hp, nth_swap_snd hp]
            exact hle
          · rw [nth_swap_other hji hjp]
            by_cases hpj : parentIdx j = i
            · rw [hpj, nth_swap_fst hi hp]
              exact h2 hipos j hj0 hj hpj
            · by_cases hpj2 : parentIdx j = parentIdx i
              · have step1 : nth l j ≤ nth l (parentIdx j) := h1 j hj hj0 hji
                rw [hpj2] at step1
                rw [hpj2, nth_swap_snd hp]
                exact le_trans step1 hle
              · rw [nth_swap_other hpj hpj2]
                exact h1 j hj hj0 hji
        · intro hppos j hj0 hj hjp
          rw [length_swap] at hj
          have hpp : parentIdx (parentIdx i) < parentIdx i := parentIdx_lt hppos
          have hppi : parentIdx (parentIdx i) ≠ i := by omega
          have hppp : parentIdx (parentIdx i) ≠ parentIdx i := by omega
          rw [nth_swap_other hppi hppp]
          by_cases hji : j = i
          · rw [hji, nth_swap_fst hi hp]
            exact h1 (parentIdx i) hp hppos (by omega)
          · have hjp2 : j ≠ parentIdx i := by
              intro hEq
              rw [hEq] at hjp
              omega
            rw [nth_swap_other hji hjp2]
            have s1 : nth l j ≤ nth l (parentIdx j) := h1 j hj hj0 hji
            rw [hjp] at s1
            exact le_trans s1 (h1 (parentIdx i) hp hppos (by omega))

theorem push_perm (l : List α) (v : α) : (push l v).Perm (v :: l) := by
  unfold push siftUp
  exact (siftUpF_perm _ _ _ (by simp)).trans (List.perm_append_singleton v l)

theorem length_push (l : List α) (v : α) :
    (push l v).length = l.length + 1 :=
  (push_perm l v).length_eq.trans (by simp)

theorem push_isHeap {l : List α} (hl : IsHeap l) (v : α) :
    IsHeap (push l v) := by
  unfold push siftUp
  apply siftUpF_isHeap l.length (l ++ [v]) l.length le_rfl (by simp)
  · intro j hj hj0 hji
    rw [List.length_append, List.length_singleton] at hj
    have hjl : j < l.length := by omega
    have hpl : parentIdx j < l.length := lt_trans (parentIdx_lt hj0) hjl
    rw [nth_append_lt hjl, nth_append_lt hpl]
    exact hl j hjl hj0
  · intro hpos j hj0 hj hpj
    rw [List.length_append, List.length_singleton] at hj
    rcases child_of_parentIdx hj0 hpj with rfl | rfl
    · omega
    · omega

theorem siftDownF_perm : ∀ (fuel : Nat) (l : List α) (i : Nat),
    (siftDownF fuel l i).Perm l := by
  intro fuel
  induction fuel with
  | zero =>
    intro l i
    exact List.Perm.refl l
  | succ fuel ih =>
    intro l i
    simp only [siftDownF]
    by_cases hi : i < l.length
    · rw [if_pos hi]
      cases hc : priorityChild l i with
      | none => exact List.Perm.refl l
      | some c =>
        obtain ⟨hclen, hic, hpc, hcmax⟩ := priorityChild_some hc
        change (if c = 0 ∨ nth l i > nth l c then l
          else siftDownF fuel (swap l i c) c).Perm l
        by_cases hstop : c = 0 ∨ nth l i > nth l c
        · rw [if_pos hstop]
        · rw [if_neg hstop]
          exact (ih (swap l i c) c).trans (swap_perm hi hclen)
    · rw [if_neg hi]

theorem siftDownF_isHeap : ∀ (fuel : Nat) (l : List α) (i : Nat),
    l.length - i ≤ fuel →
    (∀ j, j < l.length → 0 < j → parentIdx j ≠ i → nth l j ≤ nth l (parentIdx j)) →
    (0 < i → ∀ j, 0 < j → j < l.length → parentIdx j = i →
      nth l j ≤ nth l (parentIdx i)) →
    IsHeap (siftDownF fuel l i) := by
  intro fuel
  induction fuel with
  | zero =>
    intro l i hfuel h1 h2
    show IsHeap l
    intro j hj hj0
    have hpj : parentIdx j ≠ i := by
      have := parentIdx_lt hj0
      omega
    exact h1 j hj hj0 hpj
  | succ fuel ih =>
    intro l i hfuel h1 h2
    simp only [siftDownF]
    by_cases hi : i < l.length
    · rw [if_pos hi]
      cases hc : priorityChild l i with
      | none =>
        have hlen := priorityChild_none hc
        show IsHeap l
        intro j hj hj0
        refine h1 j hj hj0 ?_
        intro hpj
        rcases child_of_parentIdx hj0 hpj with rfl | rfl
        · omega
        · omega
      | some c =>
        obtain ⟨hclen, hic, hpc, hcmax⟩ := priorityChild_some hc
        have hc0 : 0 < c := by omega
        change IsHeap (if c = 0 ∨ nth l i > nth l c then l
          else siftDownF fuel (swap l i c) c)
        by_cases hstop : c = 0 ∨ nth l i > nth l c
        · rw [if_pos hstop]
          rcases hstop with hstop | hstop
          · omega
          · intro j hj hj0
            by_cases hpj : parentIdx j = i
            · rw [hpj]
              exact le_trans (hcmax j hj0 hj hpj) (le_of_lt hstop)
            · exact h1 j hj hj0 hpj
        · rw [if_neg hstop]
          push_neg at hstop
          have hgo : nth l i ≤ nth l c := hstop.2
          apply ih (swap l i c) c
            (by rw [length_swap]; omega)
          · intro j hj hj0 hjc
            rw [length_swap] at hj
            by_cases hjc2 : j = c
            · subst hjc2
              rw [hpc, nth_swap_snd hclen, nth_swap_fst hi hclen]
              exact hgo
            · by_cases hji : j = i
              · have hi0 : 0 < i := by omega
                have hp1 : parentIdx i ≠ i := by
                  have := parentIdx_lt hi0
                  omega
                have hp2 : parentIdx i ≠ c := by
                  have := parentIdx_lt hi0
                  omega
                rw [hji, nth_swap_fst hi hclen, nth_swap_other hp1 hp2]
                exact h2 hi0 c hc0 hclen hpc
              · rw [nth_swap_other hji hjc2]
                by_cases hpj : parentIdx j = i
                · rw [hpj, nth_swap_fst hi hclen]
                  exact hcmax j hj0 hj hpj
                · rw [nth_swap_other hpj hjc]
                  exact h1 j hj hj0 hpj
          · intro hcpos j hj0 hj hjp
            rw [length_swap] at hj
            have hji : j ≠ i := by
              intro hEq
              rw [hEq] at hjp
              unfold parentIdx at hjp
              omega
            have hjc : j ≠ c := by
              intro hEq
              rw [hEq] at hjp
              have := parentIdx_lt hc0
              omega
            rw [hpc, nth_swap_other hji hjc, nth_swap_fst hi hclen]
            have hpji : parentIdx j ≠ i := by
              rw [hjp]
              omega
            have s1 := h1 j hj hj0 hpji
            rw [hjp] at s1
            exact s1
    · rw [if_neg hi]
      intro j hj hj0
      have hpj : parentIdx j ≠ i := by
        have := parentIdx_lt hj0
        omega
      exact h1 j hj hj0 hpj

theorem nth_take {l : List α} {n j : Nat} (h : j < n) :
    nth (l.take n) j = nth l j := by
  induction l generalizing n j with
  | nil => simp [nth]
  | cons a t ih =>
    cases n with
    | zero => omega
    | succ m =>
      cases j with
      | zero => simp [nth]
      | succ k =>
        show nth (t.take m) k = nth t k
        exact ih (by omega)

theorem nth_dropLast {l : List α} {j : Nat} (h : j < l.length - 1) :
    nth l.dropLast j = nth l j := by
  rw [List.dropLast_eq_take]
  exact nth_take h

theorem isHeap_le_root {l : List α} (hl : IsHeap l) :
    ∀ j, j < l.length → nth l j ≤ nth l 0 := by
  intro j
  induction j using Nat.strong_induction_on with
  | _ j ih =>
    intro hj
    rcases Nat.eq_zero_or_pos j with h0 | hpos
    · subst h0
      exact le_refl _
    · exact le_trans (hl j hj hpos)
        (ih (parentIdx j) (parentIdx_lt hpos) (lt_trans (parentIdx_lt hpos) hj))

theorem nth_eq_get {l : List α} {j : Nat} (h : j < l.length) :
    nth l j = l.get ⟨j, h⟩ := by
  induction l generalizing j with
  | nil => simp at h
  | cons a t ih =>
    cases j with
    | zero => simp [nth]
    | succ k =>
      show nth t k = _
      exact ih (by simpa using h)

theorem isHeap_mem_le_root {l : List α} (hl : IsHeap l) {x : α} (hx : x ∈ l) :
    x ≤ nth l 0 := by
  rcases List.mem_iff_get.mp hx with ⟨⟨j, hj⟩, rfl⟩
  rw [← nth_eq_get hj]
  exact isHeap_le_root hl j hj

theorem popHeap_none_iff {l : List α} : popHeap l = none ↔ l = [] := by
  cases l with
  | nil => simp [popHeap]
  | cons a t =>
    cases t with
    | nil => simp [popHeap]
    | cons b u => simp [popHeap]

theorem popHeap_some_root {l : List α} {v : α} {l' : List α}
    (h : popHeap l = some (v, l')) : v = nth l 0 := by
  cases l with
  | nil => exact Option.noConfusion h
  | cons a t =>
    cases t with
    | nil =>
      injection h with h'
      rw [Prod.mk.injEq] at h'
      rw [← h'.1]
      rfl
    | cons b u =>
      injection h with h'
      rw [Prod.mk.injEq] at h'
      rw [← h'.1]
      rfl

theorem popHeap_some_perm {l : List α} {v : α} {l' : List α}
    (h : popHeap l = some (v, l')) : (v :: l').Perm l := by
  cases l with
  | nil => exact Option.noConfusion h
  | cons a t =>
    cases t with
    | nil =>
      injection h with h'
      rw [Prod.mk.injEq] at h'
      rw [← h'.1, ← h'.2]
    | cons b u =>
      injection h with h'
      rw [Prod.mk.injEq] at h'
      rw [← h'.1, ← h'.2]
      refine List.Perm.cons a ?_
      refine (siftDownF_perm _ _ _).trans ?_
      have hlast : nth (a :: b :: u) ((a :: b :: u).length - 1)
          = (b :: u).getLast (by simp) := by
        show (a :: b :: u).getD ((a :: b :: u).length - 1) default
          = (b :: u).getLast (by simp)
        rw [getD_length_sub_one (by simp : (a :: b :: u) ≠ []),
          List.getLast_cons (by simp : (b :: u) ≠ [])]
      rw [hlast]
      show (((b :: u).getLast (by simp)) :: (b :: u).dropLast).Perm (b :: u)
      exact (List.perm_append_singleton _ _).symm.trans
        (by rw [List.dropLast_append_getLast])

theorem popHeap_some_isHeap {l : List α} {v : α} {l' : List α}
    (hl : IsHeap l) (h : popHeap l = some (v, l')) : IsHeap l' := by
  cases l with
  | nil => exact Option.noConfusion h
  | cons a t =>
    cases t with
    | nil =>
      injection h with h'
      rw [Prod.mk.injEq] at h'
      rw [← h'.2]
      intro j hj hj0
      simp at hj
    | cons b u =>
      injection h with h'
      rw [Prod.mk.injEq] at h'
      rw [← h'.2]
      apply siftDownF_isHeap
      · omega
      · intro j hj hj0 hpj
        have hjlen : j < (a :: b :: u).length - 1 := by
          simpa using hj
        have hplen : parentIdx j < (a :: b :: u).length - 1 := by
          have := parentIdx_lt hj0
          omega
        have hpj0 : parentIdx j ≠ 0 := hpj
        rw [nth_set_ne _ (fun hEq => hj0.ne hEq),
          nth_set_ne _ (fun hEq => hpj0 hEq.symm),
          nth_dropLast hjlen, nth_dropLast hplen]
        exact hl j (by omega) hj0
      · intro h0
        exact absurd h0 (lt_irrefl 0)

theorem popHeap_some_max {l : List α} {v : α} {l' : List α}
    (hl : IsHeap l) (h : popHeap l = some (v, l')) : ∀ x ∈ l, x ≤ v := by
  intro x hx
  rw [popHeap_some_root h]
  exact isHeap_mem_le_root hl hx

theorem consumeAllF_spec : ∀ (fuel : Nat) (l : List α), l.length ≤ fuel →
    IsHeap l →
    (consumeAllF fuel l).Perm l ∧ (consumeAllF fuel l).Sorted (· ≥ ·) := by
  intro fuel
  induction fuel with
  | zero =>
    intro l hlen hl
    have h0 : l = [] := List.length_eq_zero.mp (by omega)
    subst h0
    exact ⟨List.Perm.refl _, List.sorted_nil⟩
  | succ fuel ih =>
    intro l hlen hl
    simp only [consumeAllF]
    cases hp : popHeap l with
    | none =>
      have h0 : l = [] := popHeap_none_iff.mp hp
      subst h0
      exact ⟨List.Perm.refl _, List.sorted_nil⟩
    | some p =>
      obtain ⟨v, l'⟩ := p
      have hperm := popHeap_some_perm hp
      have hlen' : l'.length ≤ fuel := by
        have hl1 := hperm.length_eq
        simp only [List.length_cons] at hl1
        omega
      have hih := ih l' hlen' (popHeap_some_isHeap hl hp)
      show ((v :: consumeAllF fuel l').Perm l) ∧
        (v :: consumeAllF fuel l').Sorted (· ≥ ·)
      constructor
      · exact (List.Perm.cons v hih.1).trans hperm
      · rw [List.sorted_cons]
        refine ⟨?_, hih.2⟩
        intro b hb
        have hbl' : b ∈ l' := (hih.1).subset hb
        have hbl : b ∈ l := hperm.subset (List.mem_cons_of_mem v hbl')
        exact popHeap_some_max hl hp b hbl

theorem consumeAll_spec {l : List α} (hl : IsHeap l) :
    (consumeAll l).Perm l ∧ (consumeAll l).Sorted (· ≥ ·) :=
  consumeAllF_spec l.length l le_rfl hl

end MaxHeap

/-! ### Sorted-insertion support for the top-10 reference result -/

theorem orderedInsert_ne_nil {α : Type} [LinearOrder α] (v : α)
    (s : List α) : List.orderedInsert (· ≤ ·) v s ≠ [] := by
  cases s with
  | nil => simp [List.orderedInsert]
  | cons a t =>
    simp only [List.orderedInsert]
    by_cases h : v ≤ a
    · simp [h]
    · simp [h]

theorem dropLast_take {α : Type} (l : List α) (k : Nat) (hk : k ≤ l.length) :
    (l.take k).dropLast = l.take (k - 1) := by
  rw [List.dropLast_eq_take, List.length_take, List.take_take]
  congr 1
  omega

theorem take_orderedInsert {α : Type} [LinearOrder α] (v : α) :
    ∀ (s : List α) (k : Nat), k ≤ s.length →
      (List.orderedInsert (· ≤ ·) v s).take k =
        (List.orderedInsert (· ≤ ·) v (s.take k)).dropLast := by
  intro s
  induction s with
  | nil =>
    intro k hk
    have h0 : k = 0 := by simpa using hk
    subst h0
    simp [List.orderedInsert]
  | cons a t ih =>
    intro k hk
    cases k with
    | zero => simp [List.orderedInsert]
    | succ k' =>
      simp only [List.orderedInsert, List.take_succ_cons]
      by_cases h : v ≤ a
      · rw [if_pos h, if_pos h]
        rw [List.take_succ_cons,
          List.dropLast_cons_of_ne_nil (by simp : (a :: t.take k') ≠ [])]
        congr 1
        rw [← List.take_succ_cons, dropLast_take _ _ hk, Nat.add_sub_cancel]
      · rw [if_neg h, if_neg h]
        rw [List.take_succ_cons,
          List.dropLast_cons_of_ne_nil (orderedInsert_ne_nil v (t.take k'))]
        congr 1
        exact ih k' (by simpa using hk)

theorem insertionSort_concat {α : Type} [LinearOrder α] (P : List α) (v : α) :
    List.insertionSort (· ≤ ·) (P ++ [v]) =
      List.orderedInsert (· ≤ ·) v (List.insertionSort (· ≤ ·) P) := by
  have hperm : (List.insertionSort (· ≤ ·) (P ++ [v])).Perm
      (List.orderedInsert (· ≤ ·) v (List.insertionSort (· ≤ ·) P)) := by
    refine (List.perm_insertionSort (· ≤ ·) _).trans ?_
    refine (List.perm_append_singleton v P).trans ?_
    refine (List.Perm.cons v (List.perm_insertionSort (· ≤ ·) P).symm).trans ?_
    exact (List.perm_orderedInsert (· ≤ ·) v _).symm
  have hs2 : (List.orderedInsert (· ≤ ·) v
      (List.insertionSort (· ≤ ·) P)).Sorted (· ≤ ·) :=
    List.Sorted.orderedInsert v _ (List.sorted_insertionSort (· ≤ ·) P)
  exact List.eq_of_perm_of_sorted hperm
    (List.sorted_insertionSort (· ≤ ·) (P ++ [v])) hs2

theorem sorted_le_getLast {α : Type} [LinearOrder α] :
    ∀ (l : List α) (hne : l ≠ []), l.Sorted (· ≤ ·) →
      ∀ x ∈ l, x ≤ l.getLast hne := by
  intro l
  induction l with
  | nil => intro hne; exact absurd rfl hne
  | cons a t ih =>
    intro hne hs x hx
    rcases List.sorted_cons.mp hs with ⟨ha, ht⟩
    cases t with
    | nil =>
      rcases List.mem_cons.mp hx with rfl | h
      · exact le_refl _
      · simp at h
    | cons b u =>
      rw [List.getLast_cons (by simp : (b :: u) ≠ [])]
      rcases List.mem_cons.mp hx with rfl | h
      · exact ha _ (List.getLast_mem _)
      · exact ih (by simp) ht x h

/-- Invariant of the bounded-heap loop in `search_at`: after processing `P`
of the entries, the heap holds exactly the ten least entries of `P` (in the
tuple order), i.e. the first ten of the sorted list. -/
theorem searchFold_spec : ∀ (files : List File) (h : List Prio) (P : List Prio),
    MaxHeap.IsHeap h →
    (↑h : Multiset Prio) = ↑((List.insertionSort (· ≤ ·) P).take 10) →
    h.length = min 10 P.length →
    MaxHeap.IsHeap (files.foldl searchStep h) ∧
    (↑(files.foldl searchStep h) : Multiset Prio) =
      ↑((List.insertionSort (· ≤ ·) (P ++ files.map filePrio)).take 10) ∧
    (files.foldl searchStep h).length =
      min 10 (P ++ files.map filePrio).length := by
  intro files
  induction files with
  | nil =>
    intro h P hh hm hl
    simp only [List.foldl_nil, List.map_nil, List.append_nil]
    exact ⟨hh, hm, hl⟩
  | cons f fs ih =>
    intro h P hh hm hl
    rw [List.foldl_cons]
    have hsortlen : (List.insertionSort (· ≤ ·) P).length = P.length :=
      (List.perm_insertionSort (· ≤ ·) P).length_eq
    have happend : P ++ (f :: fs).map filePrio
        = (P ++ [filePrio f]) ++ fs.map filePrio := by
      simp
    rw [happend]
    have hpush : (MaxHeap.push h (filePrio f)).Perm (filePrio f :: h) :=
      MaxHeap.push_perm h (filePrio f)
    have hlen1 : (MaxHeap.push h (filePrio f)).length = h.length + 1 :=
      MaxHeap.length_push h (filePrio f)
    have hheap1 : MaxHeap.IsHeap (MaxHeap.push h (filePrio f)) :=
      MaxHeap.push_isHeap hh (filePrio f)
    have hm1 : (↑(MaxHeap.push h (filePrio f)) : Multiset Prio)
        = filePrio f ::ₘ ↑h := by
      rw [Multiset.coe_eq_coe.mpr hpush, Multiset.cons_coe]
    have hsort1 : List.insertionSort (· ≤ ·) (P ++ [filePrio f])
        = List.orderedInsert (· ≤ ·) (filePrio f)
          (List.insertionSort (· ≤ ·) P) := insertionSort_concat P (filePrio f)
    simp only [searchStep]
    by_cases hcase : (MaxHeap.push h (filePrio f)).length > 10
    · rw [if_pos hcase]
      have hPlen : 10 ≤ P.length := by omega
      cases hp : MaxHeap.popHeap (MaxHeap.push h (filePrio f)) with
      | none =>
        have h0 := MaxHeap.popHeap_none_iff.mp hp
        rw [h0] at hlen1
        simp at hlen1
      | some p =>
        obtain ⟨m, h2⟩ := p
        simp only [Option.map_some', Option.getD_some]
        have hperm2 := MaxHeap.popHeap_some_perm hp
        have hheap2 := MaxHeap.popHeap_some_isHeap hheap1 hp
        have hmax := MaxHeap.popHeap_some_max hheap1 hp
        have hstake : ((List.insertionSort (· ≤ ·) P).take 10).Sorted (· ≤ ·) :=
          List.Pairwise.sublist (List.take_sublist _ _)
            (List.sorted_insertionSort (· ≤ ·) P)
        have hune : List.orderedInsert (· ≤ ·) (filePrio f)
            ((List.insertionSort (· ≤ ·) P).take 10) ≠ [] :=
          orderedInsert_ne_nil _ _
        have husorted : (List.orderedInsert (· ≤ ·) (filePrio f)
            ((List.insertionSort (· ≤ ·) P).take 10)).Sorted (· ≤ ·) :=
          List.Sorted.orderedInsert _ _ hstake
        have hucoe : (↑(List.orderedInsert (· ≤ ·) (filePrio f)
              ((List.insertionSort (· ≤ ·) P).take 10)) : Multiset Prio)
            = filePrio f ::ₘ ↑((List.insertionSort (· ≤ ·) P).take 10) := by
          rw [Multiset.coe_eq_coe.mpr
            (List.perm_orderedInsert (· ≤ ·) _ _), Multiset.cons_coe]
        have hh1u : (↑(MaxHeap.push h (filePrio f)) : Multiset Prio)
            = ↑(List.orderedInsert (· ≤ ·) (filePrio f)
              ((List.insertionSort (· ≤ ·) P).take 10)) := by
          rw [hm1, hm, ← hucoe]
        have hpermh1u : (MaxHeap.push h (filePrio f)).Perm
            (List.orderedInsert (· ≤ ·) (filePrio f)
              ((List.insertionSort (· ≤ ·) P).take 10)) :=
          Multiset.coe_eq_coe.mp hh1u
        have hm_mem_h1 : m ∈ MaxHeap.push h (filePrio f) :=
          hperm2.subset (List.mem_cons_self m h2)
        have hm_mem_u : m ∈ List.orderedInsert (· ≤ ·) (filePrio f)
            ((List.insertionSort (· ≤ ·) P).take 10) :=
          hpermh1u.subset hm_mem_h1
        have hgl_mem_h1 : (List.orderedInsert (· ≤ ·) (filePrio f)
              ((List.insertionSort (· ≤ ·) P).take 10)).getLast hune
            ∈ MaxHeap.push h (filePrio f) :=
          hpermh1u.symm.subset (List.getLast_mem hune)
        have hmeq : m = (List.orderedInsert (· ≤ ·) (filePrio f)
            ((List.insertionSort (· ≤ ·) P).take 10)).getLast hune :=
          le_antisymm (sorted_le_getLast _ hune husorted m hm_mem_u)
            (hmax _ hgl_mem_h1)
        have hcoeu2 : m ::ₘ (↑h2 : Multiset Prio)
            = ↑(List.orderedInsert (· ≤ ·) (filePrio f)
              ((List.insertionSort (· ≤ ·) P).take 10)) := by
          have hc := Multiset.coe_eq_coe.mpr hperm2
          rw [← Multiset.cons_coe] at hc
          exact hc.trans hh1u
        have hdrop : (↑h2 : Multiset Prio)
            = ↑((List.orderedInsert (· ≤ ·) (filePrio f)
              ((List.insertionSort (· ≤ ·) P).take 10)).dropLast) := by
          have hsplit : (List.orderedInsert (· ≤ ·) (filePrio f)
                ((List.insertionSort (· ≤ ·) P).take 10)).dropLast
              ++ [(List.orderedInsert (· ≤ ·) (filePrio f)
                ((List.insertionSort (· ≤ ·) P).take 10)).getLast hune]
              = List.orderedInsert (· ≤ ·) (filePrio f)
                ((List.insertionSort (· ≤ ·) P).take 10) :=
            List.dropLast_append_getLast hune
          have hstep : (↑(List.orderedInsert (· ≤ ·) (filePrio f)
                ((List.insertionSort (· ≤ ·) P).take 10)) : Multiset Prio)
              = ((List.orderedInsert (· ≤ ·) (filePrio f)
                  ((List.insertionSort (· ≤ ·) P).take 10)).getLast hune) ::ₘ
                ↑((List.orderedInsert (· ≤ ·) (filePrio f)
                  ((List.insertionSort (· ≤ ·) P).take 10)).dropLast) := by
            conv_lhs => rw [← hsplit]
            rw [← Multiset.coe_add, Multiset.coe_singleton, add_comm,
              Multiset.singleton_add]
          rw [← Multiset.cons_inj_right m, hcoeu2, hstep, hmeq]
        have hm2 : (↑h2 : Multiset Prio)
            = ↑((List.insertionSort (· ≤ ·) (P ++ [filePrio f])).take 10) := by
          rw [hsort1, take_orderedInsert (filePrio f)
            (List.insertionSort (· ≤ ·) P) 10 (by omega)]
          exact hdrop
        have hlen2 : h2.length = min 10 (P ++ [filePrio f]).length := by
          have hle := hperm2.length_eq
          simp only [List.length_cons] at hle
          simp only [List.length_append, List.length_singleton]
          omega
        exact ih h2 (P ++ [filePrio f]) hheap2 hm2 hlen2
    · rw [if_neg hcase]
      have hm1' : (↑(MaxHeap.push h (filePrio f)) : Multiset Prio)
          = ↑((List.insertionSort (· ≤ ·) (P ++ [filePrio f])).take 10) := by
        rw [hsort1]
        have htake1 : (List.insertionSort (· ≤ ·) P).take 10
            = List.insertionSort (· ≤ ·) P :=
          List.take_all_of_le (by omega)
        have htake2 : (List.orderedInsert (· ≤ ·) (filePrio f)
              (List.insertionSort (· ≤ ·) P)).take 10
            = List.orderedInsert (· ≤ ·) (filePrio f)
              (List.insertionSort (· ≤ ·) P) :=
          List.take_all_of_le (by rw [List.orderedInsert_length]; omega)
        rw [htake2, hm1, hm, htake1,
          Multiset.coe_eq_coe.mpr (List.perm_orderedInsert (· ≤ ·) (filePrio f)
            (List.insertionSort (· ≤ ·) P)), Multiset.cons_coe]
      have hlen1' : (MaxHeap.push h (filePrio f)).length
          = min 10 (P ++ [filePrio f]).length := by
        simp only [List.length_append, List.length_singleton]
        omega
      exact ih (MaxHeap.push h (filePrio f)) (P ++ [filePrio f])
        hheap1 hm1' hlen1'

theorem filePrio_le_iff (f g : File) :
    filePrio f ≤ filePrio g ↔ sizeDescNameAsc f g := by
  unfold filePrio sizeDescNameAsc
  rw [Prod.Lex.le_iff]
  rw [neg_lt_neg_iff, neg_inj]

theorem orderedInsert_map_filePrio (f : File) :
    ∀ (L : List File),
      List.orderedInsert (· ≤ ·) (filePrio f) (L.map filePrio)
        = (List.orderedInsert sizeDescNameAsc f L).map filePrio := by
  intro L
  induction L with
  | nil => rfl
  | cons b bs ih =>
    simp only [List.map_cons, List.orderedInsert]
    by_cases h : sizeDescNameAsc f b
    · rw [if_pos ((filePrio_le_iff f b).mpr h), if_pos h, List.map_cons,
        List.map_cons]
    · rw [if_neg (fun hc => h ((filePrio_le_iff f b).mp hc)), if_neg h,
        List.map_cons, ih]

theorem insertionSort_map_filePrio :
    ∀ (L : List File),
      List.insertionSort (· ≤ ·) (L.map filePrio)
        = (List.insertionSort sizeDescNameAsc L).map filePrio := by
  intro L
  induction L with
  | nil => rfl
  | cons b bs ih =>
    simp only [List.map_cons, List.insertionSort]
    rw [ih, orderedInsert_map_filePrio]

theorem heapqPopLoop_eq : ∀ (n : Nat) (L : List Prio),
    heapqPopLoop n L = (L.take n).map (fun p => (ofLex p).2) := by
  intro n
  induction n with
  | zero =>
    intro L
    simp [heapqPopLoop]
  | succ n ih =>
    intro L
    cases L with
    | nil => simp [heapqPopLoop]
    | cons p rest =>
      simp only [heapqPopLoop, List.take_succ_cons, List.map_cons]
      rw [ih]

/-- The whole bounded-heap pipeline of the codesignal `search_at` (fold, then
consume, then reverse) equals the sort-then-truncate reference on the same
candidate files. -/
theorem searchPipeline (files : List File) :
    ((MaxHeap.consumeAll (files.foldl searchStep [])).map
        (fun p => (ofLex p).2)).reverse
      = ((files.insertionSort sizeDescNameAsc).take 10).map File.name := by
  have hfold := searchFold_spec files [] []
    (by intro j hj hj0; simp at hj) (by rfl) (by simp)
  obtain ⟨hheap, hms, -⟩ := hfold
  rw [List.nil_append] at hms
  have hcons := MaxHeap.consumeAll_spec hheap
  have htarget_sorted : (((List.insertionSort (· ≤ ·)
      (files.map filePrio)).take 10).reverse).Sorted (· ≥ ·) := by
    rw [List.Sorted, List.pairwise_reverse]
    exact List.Pairwise.sublist (List.take_sublist _ _)
      (List.sorted_insertionSort (· ≤ ·) _)
  have hperm : (MaxHeap.consumeAll (files.foldl searchStep [])).Perm
      (((List.insertionSort (· ≤ ·) (files.map filePrio)).take 10).reverse) :=
    hcons.1.trans
      ((Multiset.coe_eq_coe.mp hms).trans (List.reverse_perm _).symm)
  have heq : MaxHeap.consumeAll (files.foldl searchStep [])
      = ((List.insertionSort (· ≤ ·) (files.map filePrio)).take 10).reverse :=
    List.eq_of_perm_of_sorted hperm hcons.2 htarget_sorted
  rw [heq, List.map_reverse, List.reverse_reverse,
    insertionSort_map_filePrio, ← List.map_take, List.map_map]
  rfl

/-- C4: both `search_at` editions return exactly the sort-then-truncate
reference result: the names of the active prefix-matching files, ordered by
size descending with ties by name ascending, truncated to the first ten. -/
theorem claim_C4_search_top10 (s : Store) (t : Int) (pre : String)
    (ht : 0 ≤ t) :
    searchAt s t pre = .ok (searchSpec s t pre) ∧
    searchAtPractice s t pre = .ok (searchSpec s t pre) := by
  constructor
  · simp only [searchAt, searchSpec]
    rw [if_neg (not_lt.mpr ht)]
    exact congrArg Except.ok (searchPipeline _)
  · simp only [searchAtPractice, searchSpec, heapqHeapify]
    rw [if_neg (not_lt.mpr ht)]
    refine congrArg Except.ok ?_
    rw [heapqPopLoop_eq, insertionSort_map_filePrio, ← List.map_take,
      List.map_map]
    rfl

/-- C4, witness: the theorem instantiated at a concrete store and query. -/
theorem claim_C4_witness :
    searchAt tieStore 5 "" = .ok (searchSpec tieStore 5 "") ∧
    searchAtPractice tieStore 5 "" = .ok (searchSpec tieStore 5 "") :=
  claim_C4_search_top10 tieStore 5 "" (by decide)

end TimedFS
